import Mathlib

/-!
# Verification of the remote-vibe Discord / coding-agent bridge

A shallow embedding of the bridge's core algorithms, translated from the
TypeScript source (`src/unnamed/part_001`), together with proofs and
refutations of the specification's claims about them.

Strings are modelled as their character lists (`Str := List Char`); JS
string concatenation, `.length`, and line splitting correspond to list
append, `List.length`, and an explicit splitter `splitLinesChar`.  The
markdown lexer the chunker relies on (`marked`'s `Lexer`) is an external
npm dependency, so it is modelled here (`markedLex`) as a line-based
fenced-code-block lexer faithful to how the bridge consumes its tokens:
only `code` tokens (with `lang` and interior `text`) are treated specially,
every other token is consumed through its `raw` text.
-/

namespace RemoteVibe

/-- JS strings, modelled as their character lists. -/
abbrev Str := List Char

/-- The backtick character (U+0060). -/
def backtick : Char := Char.ofNat 96

/-- The three-backtick code fence. -/
def fence : Str := [backtick, backtick, backtick]

/-- A line opens or closes a fenced code block when it starts with three
backticks. -/
def fenceInit (cs : Str) : Bool := cs.take 3 == fence

/-- Split a character list at every occurrence of `sep`, the way JS
`s.split(sep)` does for a one-character separator: always at least one
(possibly empty) piece, and a trailing separator yields a trailing empty
piece. -/
def splitOnChar (sep : Char) : Str → List Str
  | [] => [[]]
  | c :: cs =>
    if c = sep then [] :: splitOnChar sep cs
    else
      match splitOnChar sep cs with
      | [] => [[c]]
      | l :: ls => (c :: l) :: ls

/-- JS `s.split('\n')`. -/
def splitLinesChar : Str → List Str := splitOnChar '\n'

/-- JS `s.trim()`: strip leading and trailing whitespace. -/
def trimStr (cs : Str) : Str :=
  ((cs.dropWhile Char.isWhitespace).reverse.dropWhile Char.isWhitespace).reverse

/-- Rejoin lines with newlines, the inverse of `splitLinesChar`. -/
def intercalNL : List Str → Str
  | [] => []
  | [l] => l
  | l :: ls => l ++ '\n' :: intercalNL ls

/-! ## Voice framer (`frameMono16khz`)

The transform buffers incoming PCM bytes and pushes fixed-size frames.
Bytes are modelled as `Nat`s; the stash/offset pair of the source, whose
consumed prefix is dropped on the next `transform` call, is modelled by
keeping only the unconsumed suffix. -/

/-- `FRAME_BYTES` from the source:
`100 /*ms*/ * 16_000 /*Hz*/ * 1 /*channels*/ * 2 /*bytes per sample*/ / 1000`. -/
def FRAME_BYTES : Nat := 100 * 16000 * 1 * 2 / 1000

/-- The `while` loop of the transform: emit as many full frames as the
stash holds, returning the frames and the unconsumed remainder. -/
def emitFrames (stash : List Nat) : List (List Nat) × List Nat :=
  if FRAME_BYTES ≤ stash.length then
    let rec' := emitFrames (stash.drop FRAME_BYTES)
    (stash.take FRAME_BYTES :: rec'.1, rec'.2)
  else
    ([], stash)
termination_by stash.length
decreasing_by
  have : 0 < FRAME_BYTES := by decide
  simp only [List.length_drop]
  omega

/-- One `transform(chunk)` call: append the chunk to the stash, then emit
whole frames. -/
def frameTransform (stash : List Nat) (chunk : List Nat) :
    List (List Nat) × List Nat :=
  emitFrames (stash ++ chunk)

/-- Feeding a whole sequence of chunks through the transform, collecting
every emitted frame and the final stash. -/
def frameAll (chunks : List (List Nat)) : List (List Nat) × List Nat :=
  chunks.foldl
    (fun acc chunk =>
      let step := frameTransform acc.2 chunk
      (acc.1 ++ step.1, step.2))
    ([], [])

/-- `flush`: the trailing partial frame is dropped, never emitted; only the
frames already pushed survive. -/
def frameFlush (chunks : List (List Nat)) : List (List Nat) :=
  (frameAll chunks).1

/-! ## Stereo 48 kHz → mono 16 kHz downsampler (`convertToMono16k`)

The buffer is a list of bytes (`Nat`s below 256).  `readInt16LE` is
fallible, as Node's is: reading past the end of the buffer throws, so the
embedding returns `none` there and the whole conversion is written in the
`Option` monad — a `some` result certifies that no read went out of
bounds.  The output buffer is modelled at sample granularity (every write
in the source is a 16-bit aligned `writeInt16LE`): `Buffer.alloc`'s
zero-fill becomes a list of zero samples, and the loop writes sample `i`
only under the source's bounds guard `inputIndex + 3 < buffer.length`. -/

/-- Two's-complement signed 16-bit little-endian read at byte offset `i`,
`none` when either byte is out of bounds. -/
def readInt16LE (buf : List Nat) (i : Nat) : Option Int := do
  let b0 ← buf[i]?
  let b1 ← buf[i + 1]?
  let v := b0 + 256 * b1
  pure (if v % 65536 ≥ 32768 then (v % 65536 : Int) - 65536 else (v % 65536 : Int))

/-- JS `Math.round((l + r) / 2)`: round half toward +∞. -/
def jsRoundHalf (l r : Int) : Int := Int.fdiv (l + r + 1) 2

/-- `convertToMono16k`, from the source: `ratio = 48000/16000 = 3`,
`inputChannels = 2`, `bytesPerSample = 2`; `inputSamples = len / 4` and
`outputSamples = ⌊inputSamples / 3⌋ = len / 12`; output sample `i` reads
the two 16-bit channel samples at byte `12·i`, averages them, and is left
at its zero fill when the guard `12·i + 3 < len` fails. -/
def convertToMono16k (buf : List Nat) : Option (List Int) :=
  let outputSamples := buf.length / 12
  (List.range outputSamples).mapM fun i =>
    let inputIndex := i * 3 * 2 * 2
    if inputIndex + 3 < buf.length then do
      let leftSample ← readInt16LE buf inputIndex
      let rightSample ← readInt16LE buf (inputIndex + 2)
      pure (jsRoundHalf leftSample rightSample)
    else
      pure 0

/-- The total value of an in-bounds 16-bit read (defaulting to 0, a value
the bounds-checked paths never fall back to). -/
def readInt16D (buf : List Nat) (i : Nat) : Int := (readInt16LE buf i).getD 0

/-- The value the conversion loop leaves in output sample `i`: the rounded
channel average when the source's guard holds, the zero fill otherwise. -/
def monoSampleAt (buf : List Nat) (i : Nat) : Int :=
  if i * 3 * 2 * 2 + 3 < buf.length then
    jsRoundHalf (readInt16D buf (i * 3 * 2 * 2)) (readInt16D buf (i * 3 * 2 * 2 + 2))
  else 0

/-! ## Agent message parts and the part formatter (`formatPart`)

The `Part` type comes from the Agent's SDK (an external dependency); it is
modelled here with the variants and fields the bridge reads.  A pending
tool state carries only its status, as in the SDK's `ToolStatePending`;
`input` and `title` appear from `running` on, and an `error` state carries
the message but no title. -/

/-- A todo entry of the `todowrite` tool input. -/
inductive TodoStatus where
  | pending
  | inProgress
  | completed
  | cancelled
deriving DecidableEq, Repr

structure TodoItem where
  content : String
  status : TodoStatus
deriving DecidableEq, Repr

/-- One `Object.entries` value of a tool input: skipped when
null/undefined, used verbatim when a string, JSON-stringified otherwise. -/
inductive JsVal where
  | nullish
  | str (s : String)
  | obj (json : String)
deriving DecidableEq, Repr

/-- A tool call's input object: the typed fields the per-tool summaries
read (absent fields read as `undefined`), the parsed `todos` array, and
the `Object.entries` view the generic summary iterates. -/
structure ToolInput where
  todos : Option (List TodoItem) := none
  filePath : Option String := none
  newString : Option String := none
  oldString : Option String := none
  content : Option String := none
  url : Option String := none
  pathField : Option String := none
  pattern : Option String := none
  command : Option String := none
  description : Option String := none
  nameField : Option String := none
  fields : List (String × JsVal) := []
deriving DecidableEq, Repr

inductive ToolState where
  | pending
  | running (input : Option ToolInput) (title : Option String)
  | completed (input : Option ToolInput) (title : Option String)
  | error (input : Option ToolInput) (errorMsg : Option String)
deriving DecidableEq, Repr

/-- `part.state.input`, undefined on a pending state. -/
def ToolState.inputF : ToolState → Option ToolInput
  | .pending => none
  | .running i _ => i
  | .completed i _ => i
  | .error i _ => i

/-- `'title' in part.state ? part.state.title : undefined`. -/
def ToolState.titleF : ToolState → Option String
  | .pending => none
  | .running _ t => t
  | .completed _ t => t
  | .error _ _ => none

inductive Part where
  | text (id : String) (body : Option String)
  | reasoning (id : String) (body : Option String)
  | file (id : String) (filename : Option String)
  | stepStart (id : String)
  | stepFinish (id : String)
  | patch (id : String)
  | agent (id : String)
  | snapshot (id : String) (snapshotId : String)
  | tool (id : String) (toolName : String) (state : ToolState)
deriving DecidableEq, Repr

def Part.idOf : Part → String
  | .text i _ | .reasoning i _ | .file i _ | .stepStart i | .stepFinish i
  | .patch i | .agent i | .snapshot i _ | .tool i _ _ => i

/-- JS `s || d`: the fallback when the option is absent or the string
empty. -/
def orElseStr (s : Option String) (d : String) : String :=
  match s with
  | none => d
  | some s => if s = "" then d else s

/-- JS `s.length > 300 ? s.slice(0, 300) + '…' : s`. -/
def truncate300 (s : String) : String :=
  if s.length > 300 then s.take 300 ++ "…" else s

/-- JS `s.split('\n').length`. -/
def jsSplitLen (s : String) : Nat := (splitLinesChar s.data).length

/-- JS `s.split('/').pop() || ''`: the last path segment. -/
def lastSegment (s : String) : String :=
  match (splitOnChar '/' s.data).getLast? with
  | none => ""
  | some l => String.mk l

/-- JS `url.replace(/^https?:\/\//, '')`. -/
def stripHttp (s : String) : String :=
  if "https://".isPrefixOf s then s.drop 8
  else if "http://".isPrefixOf s then s.drop 7
  else s

/-- `getToolSummaryText`, from the source: per-tool one-line summaries. -/
def getToolSummaryText (p : Part) : String :=
  match p with
  | .tool _ toolName state =>
    let input := state.inputF
    if toolName = "edit" then
      let filePath := orElseStr (input.bind (·.filePath)) ""
      let newString := orElseStr (input.bind (·.newString)) ""
      let oldString := orElseStr (input.bind (·.oldString)) ""
      let added := toString (jsSplitLen newString)
      let removed := toString (jsSplitLen oldString)
      let fileName := lastSegment filePath
      if fileName ≠ "" then "*" ++ fileName ++ "* (+" ++ added ++ "-" ++ removed ++ ")"
      else "(+" ++ added ++ "-" ++ removed ++ ")"
    else if toolName = "write" then
      let filePath := orElseStr (input.bind (·.filePath)) ""
      let content := orElseStr (input.bind (·.content)) ""
      let lines := jsSplitLen content
      let fileName := lastSegment filePath
      let linesTxt := toString lines ++ " line" ++ (if lines = 1 then "" else "s")
      if fileName ≠ "" then "*" ++ fileName ++ "* (" ++ linesTxt ++ ")"
      else "(" ++ linesTxt ++ ")"
    else if toolName = "webfetch" then
      let url := orElseStr (input.bind (·.url)) ""
      let bare := stripHttp url
      if bare ≠ "" then "*" ++ bare ++ "*" else ""
    else if toolName = "read" then
      let fileName := lastSegment (orElseStr (input.bind (·.filePath)) "")
      if fileName ≠ "" then "*" ++ fileName ++ "*" else ""
    else if toolName = "list" then
      let path := orElseStr (input.bind (·.pathField)) ""
      let dirName := if lastSegment path ≠ "" then lastSegment path else path
      if dirName ≠ "" then "*" ++ dirName ++ "*" else ""
    else if toolName = "glob" ∨ toolName = "grep" then
      let pat := orElseStr (input.bind (·.pattern)) ""
      if pat ≠ "" then "*" ++ pat ++ "*" else ""
    else if toolName = "bash" ∨ toolName = "todoread" ∨ toolName = "todowrite" then
      ""
    else if toolName = "task" then
      let description := orElseStr (input.bind (·.description)) ""
      if description ≠ "" then "_" ++ description ++ "_" else ""
    else if toolName = "skill" then
      let nm := orElseStr (input.bind (·.nameField)) ""
      if nm ≠ "" then "_" ++ nm ++ "_" else ""
    else
      match input with
      | none => ""
      | some inp =>
        let inputFields := inp.fields.filterMap fun kv =>
          match kv.2 with
          | .nullish => none
          | .str s => some (kv.1 ++ ": " ++ truncate300 s)
          | .obj j => some (kv.1 ++ ": " ++ truncate300 j)
        if inputFields = [] then ""
        else "(" ++ String.intercalate ", " inputFields ++ ")"
  | _ => ""

/-- `formatTodoList`, from the source: the first in-progress todo,
rendered `{n}. **{content}**`, else empty. -/
def formatTodoList (p : Part) : String :=
  match p with
  | .tool _ toolName state =>
    if toolName ≠ "todowrite" then ""
    else
      let todos := (state.inputF.bind (·.todos)).getD []
      match todos.findIdx? (fun todo => todo.status = .inProgress) with
      | none => ""
      | some activeIndex =>
        match todos[activeIndex]? with
        | none => ""
        | some activeTodo =>
          toString (activeIndex + 1) ++ ". **" ++ activeTodo.content ++ "**"
  | _ => ""

/-- `formatPart`, from the source: a part's Discord rendering, empty to
suppress emission. -/
def formatPart (p : Part) : String :=
  match p with
  | .text _ body => body.getD ""
  | .reasoning _ body =>
    if trimStr (body.getD "").data = [] then "" else "◼︎ thinking"
  | .file _ filename => "📄 " ++ orElseStr filename "File"
  | .stepStart _ | .stepFinish _ | .patch _ => ""
  | .agent id => "◼︎ agent " ++ id
  | .snapshot _ snap => "◼︎ snapshot " ++ snap
  | .tool _ toolName state =>
    if toolName = "todowrite" then formatTodoList p
    else if state = .pending then ""
    else
      let summaryText := getToolSummaryText p
      let stateTitle := state.titleF
      let toolTitle :=
        match state with
        | .error _ errorMsg => orElseStr errorMsg "error"
        | _ =>
          if toolName = "bash" then
            let command := orElseStr (state.inputF.bind (·.command)) ""
            let description := orElseStr (state.inputF.bind (·.description)) ""
            let isSingleLine := '\n' ∉ command.data
            let hasUnderscores := '_' ∈ command.data
            if isSingleLine ∧ ¬hasUnderscores ∧ command.length ≤ 50 then
              "_" ++ command ++ "_"
            else if description ≠ "" then "_" ++ description ++ "_"
            else if orElseStr stateTitle "" ≠ "" then
              "_" ++ orElseStr stateTitle "" ++ "_"
            else ""
          else if orElseStr stateTitle "" ≠ "" then
            "_" ++ orElseStr stateTitle "" ++ "_"
          else ""
      let icon := match state with
        | .error _ _ => "⨯"
        | _ => "◼︎"
      icon ++ " " ++ toolName ++ " " ++ toolTitle ++ " " ++ summaryText

/-! ## Markdown lexer model and the Discord chunker

`splitMarkdownForDiscord` and `escapeBackticksInCodeBlocks` consume the
tokens of `marked`'s `Lexer`, an external npm dependency.  The bridge only
distinguishes `code` tokens (fenced code blocks, with `lang` and the
interior `text` that excludes the fences) from everything else, which it
consumes through `raw`; `markedLex` models exactly that view: a line
starting with three backticks opens a fenced block whose interior runs to
the next such line (or to the end of input), every other line is a token
of its own whose `raw` is the line with its newline. -/

/-- The token view of the external markdown lexer: a fenced code block
(`lang`, interior `text`), or any other token via its `raw` text. -/
inductive MdToken where
  | code (lang : Str) (text : Str)
  | other (raw : Str)
deriving DecidableEq, Repr

/-- `Modelled from the spec:` the external markdown lexer (`marked`'s
`Lexer`), which the spec describes as tokenising into fenced code blocks
and passthrough text.  Input: the lines of the content (`splitLinesChar`
output, so every line is newline-free and all but the last were
newline-terminated).  A fence line opens a `code` token whose interior
runs to the next fence line or to the end of input; any other line is an
`other` token carrying the line plus its newline (the final line carries
none, and a final empty line yields no token).  The state is `none`
outside a block and `some (lang, interior-so-far, reversed)` inside. -/
def lexGo : Option (Str × List Str) → List Str → List MdToken
  | none, [] => []
  | none, [l] =>
    if l = [] then []
    else if fenceInit l then [.code (l.drop 3) []]
    else [.other l]
  | none, l :: l' :: ls =>
    if fenceInit l then lexGo (some (l.drop 3, [])) (l' :: ls)
    else .other (l ++ ['\n']) :: lexGo none (l' :: ls)
  | some (lang, acc), [] => [.code lang (intercalNL acc.reverse)]
  | some (lang, acc), l :: ls =>
    if fenceInit l then .code lang (intercalNL acc.reverse) :: lexGo none ls
    else lexGo (some (lang, l :: acc)) ls

/-- The lexer model applied to raw content. -/
def markedLex (content : Str) : List MdToken :=
  lexGo none (splitLinesChar content)

/-- The `LineInfo` records the chunker builds from the token stream
(source lines 1043–1049). -/
structure LineInfo where
  text : Str
  inCodeBlock : Bool
  lang : Str
  isOpeningFence : Bool
  isClosingFence : Bool
deriving DecidableEq, Repr

/-- The non-code branch of the line builder (source lines 1076–1084):
split `raw` on newlines, re-append the newline to every line but the
last, and drop empty texts. -/
def rawToLines (raw : Str) : List LineInfo :=
  let rec go : List Str → List LineInfo
    | [] => []
    | [l] => if l ≠ [] then [⟨l, false, [], false, false⟩] else []
    | l :: ls => ⟨l ++ ['\n'], false, [], false, false⟩ :: go ls
  go (splitLinesChar raw)

/-- The per-token line builder (source lines 1066–1085): a code token
becomes an opening fence line, its interior lines flagged `inCodeBlock`,
and a closing fence line. -/
def linesOfToken : MdToken → List LineInfo
  | .code lang text =>
    ⟨fence ++ lang ++ ['\n'], false, lang, true, false⟩ ::
    ((splitLinesChar text).map fun cl => ⟨cl ++ ['\n'], true, lang, false, false⟩) ++
    [⟨fence ++ ['\n'], false, [], false, true⟩]
  | .other raw => rawToLines raw

def linesOf (ts : List MdToken) : List LineInfo :=
  (ts.map linesOfToken).flatten

/-- The greedy chunking loop (source lines 1087–1131), with the running
chunk and the open code-block language threaded through.  JS truthiness:
`currentChunk` is truthy iff nonempty, `currentLang !== null` is
`Option.isSome`. -/
def splitLoop (maxLength : Nat) : List LineInfo → Str → Option Str → List Str
  | [], cur, _ => if cur ≠ [] then [cur] else []
  | l :: ls, cur, curLang =>
    if cur.length + l.text.length > maxLength ∧ cur ≠ [] then
      let closed := if curLang.isSome then cur ++ fence ++ ['\n'] else cur
      if l.isClosingFence ∧ curLang.isSome then
        closed :: splitLoop maxLength ls [] none
      else if l.inCodeBlock ∨ l.isOpeningFence then
        let newCur := fence ++ l.lang ++ ['\n'] ++ (if l.isOpeningFence then [] else l.text)
        closed :: splitLoop maxLength ls newCur (some l.lang)
      else
        closed :: splitLoop maxLength ls l.text none
    else
      let newCur := cur ++ l.text
      let newLang := if l.inCodeBlock ∨ l.isOpeningFence then some l.lang
                     else if l.isClosingFence then none
                     else curLang
      splitLoop maxLength ls newCur newLang

/-- `splitMarkdownForDiscord` (source lines 1051–1132): content at most
`maxLength` long is returned as the single chunk, otherwise the token
stream is flattened into lines and fed through the greedy loop. -/
def splitMarkdownForDiscord (content : Str) (maxLength : Nat) : List Str :=
  if content.length ≤ maxLength then [content]
  else splitLoop maxLength (linesOf (markedLex content)) [] none

/-- `token.text.replace(/`/g, '\\`')`: escape every backtick in a code
block's interior. -/
def escapeCode : Str → Str
  | [] => []
  | c :: cs => if c = backtick then '\\' :: c :: escapeCode cs else c :: escapeCode cs

/-- The canonical re-rendering of one token used by
`escapeBackticksInCodeBlocks` (source lines 1031–1038): a code token is
re-fenced with its interior escaped, any other token passes through as
its raw text. -/
def renderEscapedToken : MdToken → Str
  | .code lang text => fence ++ lang ++ ['\n'] ++ escapeCode text ++ '\n' :: fence ++ ['\n']
  | .other raw => raw

/-- `escapeBackticksInCodeBlocks` (source lines 1025–1041). -/
def escapeBackticksInCodeBlocks (content : Str) : Str :=
  ((markedLex content).map renderEscapedToken).flatten

/-- The number of fence lines (lines starting with three backticks) in a
chunk; a chunk is fence-balanced when this is even, since fence lines
alternate between opening and closing a block. -/
def fenceCount (cs : Str) : Nat :=
  ((splitLinesChar cs).filter fenceInit).length

/-! ## Part→message persistence and the two emission paths

`part_messages` rows are keyed by part id (`INSERT OR REPLACE`); the
streaming path (`sendPartMessage`, source lines 1740–1765) consults the
in-memory `sentPartIds` set seeded from the thread's rows, while the
`/resume` handler (source lines 2915–2961) renders the last 30 assistant
parts into one combined Discord message and records each of them under
the combined message id.  `posts` is the ghost log of Discord posts and
the part each was sourced from. -/

structure PartRow where
  partId : String
  messageId : String
  threadId : String
deriving DecidableEq, Repr

/-- `INSERT OR REPLACE INTO part_messages` — replace the row with the same
part id (its primary key). -/
def upsertPartRow (rows : List PartRow) (r : PartRow) : List PartRow :=
  r :: rows.filter fun q => q.partId ≠ r.partId

/-- `SELECT part_id FROM part_messages WHERE thread_id = ?`, the seed of
`sentPartIds`. -/
def partIdsForThread (rows : List PartRow) (threadId : String) : List String :=
  (rows.filter fun q => q.threadId = threadId).map (·.partId)

structure EmitState where
  rows : List PartRow
  sent : List String
  posts : List (String × String)
deriving DecidableEq, Repr

/-- `sendPartMessage` (source lines 1740–1765): skip when the rendering is
blank or the part id was already sent; otherwise post to the thread,
remember the id, and upsert the row. -/
def sendPartMessage (threadId msgId : String) (p : Part) (st : EmitState) : EmitState :=
  let content := formatPart p ++ "\n\n"
  if trimStr content.data = [] then st
  else if p.idOf ∈ st.sent then st
  else
    { rows := upsertPartRow st.rows ⟨p.idOf, msgId, threadId⟩
      sent := p.idOf :: st.sent
      posts := st.posts ++ [(p.idOf, msgId)] }

/-- The `/resume` combined post (source lines 2915–2961): keep the
assistant parts whose rendering is non-blank, take the last 30, post them
as one combined message (each rendered part is a source of that post),
and record every rendered part under the combined message id.  No
already-sent check is made on this path. -/
def resumeCombined (threadId msgId : String) (assistantParts : List Part)
    (st : EmitState) : EmitState :=
  let allAssistantParts := assistantParts.filterMap fun p =>
    let content := formatPart p
    if trimStr content.data ≠ [] then some (p.idOf, content) else none
  let partsToRender := allAssistantParts.drop (allAssistantParts.length - 30)
  if partsToRender ≠ [] then
    { rows := partsToRender.foldl (fun rows pr => upsertPartRow rows ⟨pr.1, msgId, threadId⟩) st.rows
      sent := st.sent
      posts := st.posts ++ partsToRender.map fun pr => (pr.1, msgId) }
  else st

/-- The number of Discord posts in the log whose source is the given
part. -/
def postCount (posts : List (String × String)) (partId : String) : Nat :=
  (posts.filter fun q => q.1 = partId).length

/-! ## Submission flow: supersede, debounce, and the completion footer

`handleOpencodeSession` (source lines 1563–2120).  The sequence of
side effects on the main path is modelled as a list; the environment
records what the cancellation signal showed at each of the source's
checkpoints and whether the prompt parsed as a slash command.  The
concurrent event handler's own emissions are governed by the Agent's
event stream and are modelled separately (`runFinally`). -/

inductive AbortReason where
  | newRequestStarted
  | finished
  | errorAbort
  | userAbort
deriving DecidableEq, Repr

inductive SubmitEffect where
  | abortExisting
  | installFreshHandle
  | wait200ms
  | subscribeEvents
  | startTypingE
  | callCommandEndpoint
  | callPromptEndpoint
  | abortWithFinished
  | reactSuccess
  | postToThread (content : String)
deriving DecidableEq, Repr

structure SubmitEnv where
  hasExistingController : Bool
  abortedAfterWait : Bool
  abortedBeforeSubscribe : Bool
  abortedAfterSubscribe : Bool
  abortedBeforePrompt : Bool
  isCommand : Bool
deriving DecidableEq, Repr

/-- The tail of the flow from the prompt checkpoint on (source lines
2012–2082). -/
def submitAfterSubscribe (env : SubmitEnv) : List SubmitEffect :=
  if env.abortedBeforePrompt then []
  else
    .startTypingE ::
    (if env.isCommand then [.callCommandEndpoint] else [.callPromptEndpoint]) ++
    [.abortWithFinished, .reactSuccess]

/-- The tail of the flow from the subscribe checkpoint on (source lines
1665–1680). -/
def submitFromSubscribe (env : SubmitEnv) : List SubmitEffect :=
  if env.abortedBeforeSubscribe then []
  else
    .subscribeEvents ::
    (if env.abortedAfterSubscribe then [] else submitAfterSubscribe env)

/-- The main-path effect sequence of `handleOpencodeSession` after the
session row is stored (source lines 1645 on): abort any existing
controller with the new-request error, install a fresh one, and — only
when one existed — wait 200 ms and exit if the fresh signal was aborted
during the wait. -/
def submitFlow (env : SubmitEnv) : List SubmitEffect :=
  (if env.hasExistingController then [.abortExisting] else []) ++
  [.installFreshHandle] ++
  (if env.hasExistingController then
    .wait200ms :: (if env.abortedAfterWait then [] else submitFromSubscribe env)
  else submitFromSubscribe env)

/-- The completion footer text (source line 1999):
`` `_Completed in ${sessionDuration}${contextInfo}_${attachCommand}${modelInfo}` ``. -/
def completionFooter (duration : String) (contextPct : Option Nat)
    (sessionId : String) (hasPort : Bool) (usedModel : Option String) : String :=
  "_Completed in " ++ duration ++
  (match contextPct with | some n => " ⋅ " ++ toString n ++ "%" | none => "") ++
  "_" ++
  (if hasPort then " ⋅ " ++ sessionId else "") ++
  (match usedModel with | some m => " ⋅ " ++ m | none => "")

/-- The event handler's `finally` block (source lines 1956–2006): flush
the parts not yet sent through `sendPartMessage`, then post the duration
footer only when the request was not aborted or was aborted with reason
`finished`. -/
def runFinally (threadId msgId : String) (currentParts : List Part) (st : EmitState)
    (aborted : Bool) (reason : Option AbortReason) (duration : String)
    (contextPct : Option Nat) (sessionId : String) (hasPort : Bool)
    (usedModel : Option String) : EmitState × Option String :=
  let flushed := currentParts.foldl
    (fun s p => if p.idOf ∈ s.sent then s else sendPartMessage threadId msgId p s) st
  if aborted = false ∨ reason = some .finished then
    (flushed, some (completionFooter duration contextPct sessionId hasPort usedModel))
  else
    (flushed, none)

/-! ## Permission mediator (`permission.updated` branch)

Source lines 1900–1930: the warning message posted to the thread and the
pending-permission entry recorded under the thread id.  Strings are `Str`
here so the containment facts are plain list lemmas. -/

/-- `permission.pattern`: a string, an array of strings, or absent. -/
inductive PatternVal where
  | absent
  | strV (s : Str)
  | arrV (l : List Str)
deriving DecidableEq, Repr

structure PermissionInfo where
  permId : Str
  sessionID : Str
  permType : Str
  title : Str
  pattern : PatternVal
deriving DecidableEq, Repr

/-- Join with a separator (JS `Array.prototype.join`). -/
def joinSep (sep : Str) : List Str → Str
  | [] => []
  | [l] => l
  | l :: ls => l ++ sep ++ joinSep sep ls

/-- `patternStr` (source lines 1913–1915): array patterns joined with
`", "`, string patterns as themselves, absent as empty. -/
def patternStr : PatternVal → Str
  | .absent => []
  | .strV s => s
  | .arrV l => joinSep ", ".data l

/-- The `⚠️ **Permission Required**` message (source lines 1917–1924). -/
def permissionRequestMessage (perm : PermissionInfo) : Str :=
  "⚠️ **Permission Required**\n\n".data ++
  "**Type:** `".data ++ perm.permType ++ "`\n".data ++
  "**Action:** ".data ++ perm.title ++ "\n".data ++
  (if patternStr perm.pattern ≠ [] then
    "**Pattern:** `".data ++ patternStr perm.pattern ++ "`\n".data
  else []) ++
  "\nUse `/accept` or `/reject` to respond.".data

structure PendingPermission where
  permission : PermissionInfo
  messageId : Str
  directory : Str
deriving DecidableEq, Repr

/-- `pendingPermissions.set(thread.id, …)`: overwrite the entry for the
thread. -/
def setPending (m : List (Str × PendingPermission)) (k : Str) (v : PendingPermission) :
    List (Str × PendingPermission) :=
  (k, v) :: m.filter fun kv => kv.1 ≠ k

def lookupPending (m : List (Str × PendingPermission)) (k : Str) : Option PendingPermission :=
  (m.find? fun kv => kv.1 = k).map (·.2)

/-- The whole `permission.updated` branch: the message posted to the
thread and the updated pending map. -/
def permissionUpdatedBranch (pending : List (Str × PendingPermission))
    (threadId : Str) (perm : PermissionInfo) (msgId directory : Str) :
    List (Str × PendingPermission) × Str :=
  (setPending pending threadId ⟨perm, msgId, directory⟩, permissionRequestMessage perm)

/-! ## Shapes of lexed token streams and of the chunker's line lists

`CanonToks` captures exactly the token shapes `markedLex` produces: every
`other` token is one newline-terminated non-fence line (the final token
may be a bare line), every `code` token has a newline-free language tag
and an interior none of whose lines is fence-initial.  `WFLines` is the
corresponding shape of the `LineInfo` lists the chunker consumes, with
the flag tracking whether a fenced block is open.  `NLseq` says a string
is a sequence of newline-terminated lines. -/

inductive CanonToks : List MdToken → Prop where
  | nil : CanonToks []
  | lastOther (l : Str) : l ≠ [] → '\n' ∉ l → fenceInit l = false →
      CanonToks [.other l]
  | otherNL (l : Str) (ts : List MdToken) : '\n' ∉ l → fenceInit l = false →
      CanonToks ts → CanonToks (.other (l ++ ['\n']) :: ts)
  | codeTok (lang text : Str) (ts : List MdToken) : '\n' ∉ lang →
      (∀ x ∈ splitLinesChar text, fenceInit x = false) →
      CanonToks ts → CanonToks (.code lang text :: ts)

inductive WFLines : Bool → List LineInfo → Prop where
  | nil : WFLines false []
  | lastPlain (t : Str) : t ≠ [] → '\n' ∉ t → fenceInit t = false →
      WFLines false [⟨t, false, [], false, false⟩]
  | plain (body : Str) (rest : List LineInfo) :
      '\n' ∉ body → fenceInit body = false → WFLines false rest →
      WFLines false (⟨body ++ ['\n'], false, [], false, false⟩ :: rest)
  | openF (lang : Str) (rest : List LineInfo) : '\n' ∉ lang →
      WFLines true rest →
      WFLines false (⟨fence ++ lang ++ ['\n'], false, lang, true, false⟩ :: rest)
  | code (body lang : Str) (rest : List LineInfo) :
      '\n' ∉ body → fenceInit body = false → '\n' ∉ lang → WFLines true rest →
      WFLines true (⟨body ++ ['\n'], true, lang, false, false⟩ :: rest)
  | closeF (rest : List LineInfo) : WFLines false rest →
      WFLines true (⟨fence ++ ['\n'], false, [], false, true⟩ :: rest)

inductive NLseq : Str → Prop where
  | nil : NLseq []
  | line (body rest : Str) : '\n' ∉ body → NLseq rest →
      NLseq (body ++ '\n' :: rest)

/-- The token transformation one `escapeBackticksInCodeBlocks` pass
performs: code interiors escaped, everything else untouched. -/
def canonTok : MdToken → MdToken
  | .code lang text => .code lang (escapeCode text)
  | .other raw => .other raw

/-- Whether a token's code interior is free of backticks (`other` tokens
vacuously so). -/
def codeBacktickFree : MdToken → Bool
  | .code _ text => backtick ∉ text
  | .other _ => true

/-- The longest line text in a chunker line list. -/
def maxTextLen (lines : List LineInfo) : Nat :=
  lines.foldr (fun l m => max l.text.length m) 0

/-- The longest re-opening fence header (`` ``` `` + lang + newline) in a
chunker line list. -/
def maxFenceLen (lines : List LineInfo) : Nat :=
  lines.foldr (fun l m => max (l.lang.length + 4) m) 0

/-! ## Theorems -/

theorem splitOnChar_ne_nil (sep : Char) (cs : Str) : splitOnChar sep cs ≠ [] := by
  induction cs with
  | nil => simp [splitOnChar]
  | cons c cs ih =>
    simp only [splitOnChar]
    split
    · simp
    · split <;> simp

theorem splitLinesChar_ne_nil (cs : Str) : splitLinesChar cs ≠ [] :=
  splitOnChar_ne_nil '\n' cs

theorem intercalNL_splitLinesChar (cs : Str) :
    intercalNL (splitLinesChar cs) = cs := by
  induction cs with
  | nil => rfl
  | cons c cs ih =>
    simp only [splitLinesChar, splitOnChar]
    split
    · subst_vars
      rw [show splitOnChar '\n' cs = splitLinesChar cs from rfl]
      rw [show intercalNL ([] :: splitLinesChar cs) = [] ++ '\n' :: intercalNL (splitLinesChar cs) from ?_, ih]
      · simp
      · cases h : splitLinesChar cs with
        | nil => exact absurd h (splitLinesChar_ne_nil cs)
        | cons l ls => rfl
    · cases h : splitLinesChar cs with
      | nil => exact absurd h (splitLinesChar_ne_nil cs)
      | cons l ls =>
        rw [show splitOnChar '\n' cs = splitLinesChar cs from rfl, h]
        rw [h] at ih
        cases ls with
        | nil => simpa [intercalNL] using congrArg (c :: ·) ih
        | cons l' ls' => simpa [intercalNL] using congrArg (c :: ·) ih

theorem mem_splitOnChar_no_sep (sep : Char) (cs : Str) :
    ∀ l ∈ splitOnChar sep cs, sep ∉ l := by
  induction cs with
  | nil => intro l hl; simp [splitOnChar] at hl; simp [hl]
  | cons c cs ih =>
    intro l hl
    simp only [splitOnChar] at hl
    split at hl
    · rcases List.mem_cons.1 hl with h | h
      · simp [h]
      · exact ih l h
    · rename_i hc
      cases h : splitOnChar sep cs with
      | nil => exact absurd h (splitOnChar_ne_nil sep cs)
      | cons t ts =>
        rw [h] at hl
        rcases List.mem_cons.1 hl with h' | h'
        · subst h'
          intro hmem
          rcases List.mem_cons.1 hmem with h'' | h''
          · exact hc h''.symm
          · exact ih t (h ▸ List.mem_cons_self t ts) h''
        · exact ih l (h ▸ List.mem_cons.2 (Or.inr h'))

theorem mem_splitLinesChar_no_newline (cs : Str) :
    ∀ l ∈ splitLinesChar cs, '\n' ∉ l :=
  mem_splitOnChar_no_sep '\n' cs

/-- Splitting off one newline-free, newline-terminated line. -/
theorem splitLinesChar_line_append (body : Str) (rest : Str) (h : '\n' ∉ body) :
    splitLinesChar (body ++ '\n' :: rest) = body :: splitLinesChar rest := by
  induction body with
  | nil => simp [splitLinesChar, splitOnChar]
  | cons c cs ih =>
    have hc : c ≠ '\n' := fun hh => h (hh ▸ List.mem_cons_self c cs)
    have hcs : '\n' ∉ cs := fun hh => h (List.mem_cons.2 (Or.inr hh))
    simp only [List.cons_append, splitLinesChar, splitOnChar, if_neg hc]
    rw [List.append_eq]
    have := ih hcs
    simp only [splitLinesChar] at this
    rw [this]

/-- Splitting a newline-free string alone. -/
theorem splitLinesChar_no_newline (cs : Str) (h : '\n' ∉ cs) :
    splitLinesChar cs = [cs] := by
  induction cs with
  | nil => rfl
  | cons c cs ih =>
    have hc : c ≠ '\n' := fun hh => h (hh ▸ List.mem_cons_self c cs)
    have hcs : '\n' ∉ cs := fun hh => h (List.mem_cons.2 (Or.inr hh))
    have := ih hcs
    simp only [splitLinesChar, splitOnChar, if_neg hc] at this ⊢
    rw [this]

theorem emitFrames_frame_length (stash : List Nat) :
    ∀ f ∈ (emitFrames stash).1, f.length = FRAME_BYTES := by
  induction stash using emitFrames.induct with
  | case1 stash h ih =>
    intro f hf
    rw [emitFrames, if_pos h] at hf
    rcases List.mem_cons.1 hf with h' | h'
    · subst h'; simp [List.length_take]; omega
    · exact ih f h'
  | case2 stash h =>
    intro f hf
    rw [emitFrames, if_neg h] at hf
    simp at hf

theorem emitFrames_join (stash : List Nat) :
    (emitFrames stash).1.flatten ++ (emitFrames stash).2 = stash := by
  induction stash using emitFrames.induct with
  | case1 stash h ih =>
    rw [emitFrames, if_pos h]
    simpa using congrArg (stash.take FRAME_BYTES ++ ·) ih
  | case2 stash h =>
    rw [emitFrames, if_neg h]
    simp

theorem emitFrames_rest_short (stash : List Nat) :
    (emitFrames stash).2.length < FRAME_BYTES := by
  induction stash using emitFrames.induct with
  | case1 stash h ih => rw [emitFrames, if_pos h]; exact ih
  | case2 stash h => rw [emitFrames, if_neg h]; simpa using Nat.lt_of_not_le h

theorem frameAll_frame_length (chunks : List (List Nat)) :
    ∀ f ∈ (frameAll chunks).1, f.length = FRAME_BYTES := by
  suffices h : ∀ (chunks : List (List Nat)) (acc : List (List Nat) × List Nat),
      (∀ f ∈ acc.1, f.length = FRAME_BYTES) →
      ∀ f ∈ (chunks.foldl
        (fun acc chunk =>
          let step := frameTransform acc.2 chunk
          (acc.1 ++ step.1, step.2)) acc).1, f.length = FRAME_BYTES by
    intro f hf
    exact h chunks ([], []) (by simp) f hf
  intro chunks
  induction chunks with
  | nil => intro acc hacc f hf; exact hacc f hf
  | cons c cs ih =>
    intro acc hacc f hf
    refine ih _ ?_ f hf
    intro g hg
    rcases List.mem_append.1 hg with h' | h'
    · exact hacc g h'
    · exact emitFrames_frame_length _ g h'

theorem frameAll_rest_short (chunks : List (List Nat)) :
    (frameAll chunks).2.length < FRAME_BYTES := by
  suffices h : ∀ (chunks : List (List Nat)) (acc : List (List Nat) × List Nat),
      acc.2.length < FRAME_BYTES →
      (chunks.foldl
        (fun acc chunk =>
          let step := frameTransform acc.2 chunk
          (acc.1 ++ step.1, step.2)) acc).2.length < FRAME_BYTES by
    exact h chunks ([], []) (by simp [FRAME_BYTES])
  intro chunks
  induction chunks with
  | nil => intro acc hacc; exact hacc
  | cons c cs ih =>
    intro acc _
    exact ih _ (emitFrames_rest_short _)

/-- The flushed output is exactly the whole frames of the concatenated
input: its concatenation plus the dropped tail is the input, and the
dropped tail is shorter than one frame. -/
theorem frameFlush_exact (chunks : List (List Nat)) :
    (frameFlush chunks).flatten ++ (frameAll chunks).2 = chunks.flatten ∧
    (frameAll chunks).2.length < FRAME_BYTES := by
  refine ⟨?_, frameAll_rest_short chunks⟩
  suffices h : ∀ (chunks : List (List Nat)) (acc : List (List Nat) × List Nat),
      (chunks.foldl
        (fun acc chunk =>
          let step := frameTransform acc.2 chunk
          (acc.1 ++ step.1, step.2)) acc).1.flatten ++
      (chunks.foldl
        (fun acc chunk =>
          let step := frameTransform acc.2 chunk
          (acc.1 ++ step.1, step.2)) acc).2 =
      acc.1.flatten ++ (acc.2 ++ chunks.flatten) by
    simpa [frameFlush, frameAll] using h chunks ([], [])
  intro chunks
  induction chunks with
  | nil => intro acc; simp
  | cons c cs ih =>
    intro acc
    rw [List.foldl_cons]
    have hstep := ih ((acc.1 ++ (frameTransform acc.2 c).1, (frameTransform acc.2 c).2))
    simp only [] at hstep
    rw [hstep]
    have hj : (emitFrames (acc.2 ++ c)).1.flatten ++
        ((emitFrames (acc.2 ++ c)).2 ++ cs.flatten) = acc.2 ++ (c ++ cs.flatten) := by
      rw [← List.append_assoc, emitFrames_join, List.append_assoc]
    simp only [frameTransform, List.flatten_append, List.flatten_cons, List.append_assoc, hj]

theorem readInt16LE_isSome (buf : List Nat) (i : Nat) (h : i + 1 < buf.length) :
    (readInt16LE buf i).isSome := by
  have h0 : i < buf.length := by omega
  simp [readInt16LE, List.getElem?_eq_getElem, h, h0]

theorem mapM_option_eq_map {α β : Type} {f : α → Option β} {g : α → β}
    {l : List α} (h : ∀ a ∈ l, f a = some (g a)) : l.mapM f = some (l.map g) := by
  induction l with
  | nil => rfl
  | cons a l ih =>
    rw [List.mapM_cons, h a (List.mem_cons_self a l),
      ih fun b hb => h b (List.mem_cons.2 (Or.inr hb))]
    rfl

theorem convertToMono16k_eq_map (buf : List Nat) :
    convertToMono16k buf = some ((List.range (buf.length / 12)).map (monoSampleAt buf)) := by
  refine mapM_option_eq_map fun i _ => ?_
  simp only [monoSampleAt]
  by_cases hg : i * 3 * 2 * 2 + 3 < buf.length
  · rw [if_pos hg, if_pos hg]
    obtain ⟨l, hl⟩ := Option.isSome_iff_exists.1
      (readInt16LE_isSome buf (i * 3 * 2 * 2) (by omega))
    obtain ⟨r, hr⟩ := Option.isSome_iff_exists.1
      (readInt16LE_isSome buf (i * 3 * 2 * 2 + 2) (by omega))
    simp [hl, hr, readInt16D]
  · rw [if_neg hg, if_neg hg]
    rfl

/-! ### C7 — voice framer frame size -/

/-- C7 counterexample: the claim says frames are "3200 samples × 2 bytes
each" (6400 bytes); feeding 3200 bytes already emits one exact frame of
3200 bytes, so the frame size is 3200 bytes = 1600 samples, not 3200
samples. -/
theorem frameSize_counterexample :
    (frameTransform [] (List.replicate 3200 0)).1 = [List.replicate 3200 0] ∧
    (List.replicate 3200 (0 : Nat)).length ≠ 3200 * 2 := by
  constructor
  · show (emitFrames ([] ++ List.replicate 3200 0)).1 = _
    rw [List.nil_append, emitFrames]
    have hfb : FRAME_BYTES = 3200 := by decide
    have h1 : FRAME_BYTES ≤ (List.replicate 3200 (0 : Nat)).length := by
      rw [List.length_replicate, hfb]
    rw [if_pos h1]
    have h2 : (List.replicate 3200 (0 : Nat)).drop FRAME_BYTES = [] := by
      rw [hfb, List.drop_replicate]
      norm_num
    have h3 : (List.replicate 3200 (0 : Nat)).take FRAME_BYTES
        = List.replicate 3200 (0 : Nat) := by
      rw [hfb, List.take_replicate]
      norm_num
    rw [h2, h3, emitFrames]
    have h4 : ¬ FRAME_BYTES ≤ ([] : List Nat).length := by
      rw [hfb]; simp
    rw [if_neg h4]
  · rw [List.length_replicate]
    omega

/-- C7 amended: the framer emits only exact whole 100-ms frames of
`FRAME_BYTES = 3200` bytes (1600 samples × 2 bytes of the 16 kHz mono
16-bit stream, not 3200 samples); the emitted frames concatenate to a
prefix of the input, and on flush the trailing partial frame (always
shorter than one frame) is dropped and never emitted. -/
theorem framer_exact_frames (chunks : List (List Nat)) :
    FRAME_BYTES = 1600 * 2 ∧
    (∀ f ∈ frameFlush chunks, f.length = FRAME_BYTES) ∧
    (frameFlush chunks).flatten ++ (frameAll chunks).2 = chunks.flatten ∧
    (frameAll chunks).2.length < FRAME_BYTES :=
  ⟨by decide, frameAll_frame_length chunks, (frameFlush_exact chunks).1,
    (frameFlush_exact chunks).2⟩

/-- C7 witness: one 3200-byte chunk flushes to exactly its own bytes with
an empty dropped tail. -/
theorem framer_exact_frames_witness :
    (frameFlush [List.replicate 3200 0]).flatten ++ (frameAll [List.replicate 3200 0]).2
      = List.replicate 3200 0 := by
  have h := (framer_exact_frames [List.replicate 3200 0]).2.2.1
  rw [show ([List.replicate 3200 (0 : Nat)]).flatten = List.replicate 3200 0 by
    rw [List.flatten_cons, List.flatten_nil, List.append_nil]] at h
  exact h

/-! ### C10 — downsampler memory safety -/

/-- C10: `convertToMono16k` is total and in-bounds — every 16-bit read is
bounds-checked, so the conversion never reads past the end of the input
(the `Option` result is always `some`); the output holds
`⌊len/12⌋` samples; and any output sample whose four source bytes would
not all lie inside the input is left at its zero fill. -/
theorem convertToMono16k_inBounds (buf : List Nat) :
    (convertToMono16k buf).isSome ∧
    ∀ out, convertToMono16k buf = some out →
      out.length = buf.length / 12 ∧
      ∀ i, (h : i < out.length) → ¬ (i * 3 * 2 * 2 + 3 < buf.length) →
        out.get ⟨i, h⟩ = 0 := by
  refine ⟨by simp [convertToMono16k_eq_map], ?_⟩
  intro out hout
  rw [convertToMono16k_eq_map] at hout
  cases hout
  constructor
  · simp
  · intro i h hguard
    simp only [List.get_eq_getElem, List.getElem_map, List.getElem_range]
    exact if_neg hguard

/-- C10 witness: a concrete 24-byte buffer converts without a failed read
into two samples. -/
theorem convertToMono16k_inBounds_witness :
    ∃ out, convertToMono16k (List.replicate 24 7) = some out ∧ out.length = 2 := by
  obtain ⟨h1, h2⟩ := convertToMono16k_inBounds (List.replicate 24 7)
  obtain ⟨out, hout⟩ := Option.isSome_iff_exists.1 h1
  exact ⟨out, hout, by simpa using (h2 out hout).1⟩

/-! ### C8 — pending tool parts are suppressed -/

/-- C8: for every tool part whose state is pending, `formatPart` returns
the empty string (the `todowrite` branch finds no input on a pending
state, every other tool hits the pending check), so the part's emission
is suppressed. -/
theorem formatPart_pending_empty (id toolName : String) :
    formatPart (.tool id toolName .pending) = "" := by
  by_cases h : toolName = "todowrite" <;>
    simp [formatPart, formatTodoList, ToolState.inputF, h]

/-! ### C4 — supersede and debounce -/

/-- C4: when the resolved session already has a cancellation handle, the
submission aborts it, installs a fresh handle, and waits 200 ms; if the
fresh handle is aborted during that wait the submission returns without
subscribing to the event stream, without sending the prompt or command,
and without posting anything to the thread. -/
theorem submit_supersede_debounce (env : SubmitEnv)
    (h : env.hasExistingController = true) :
    (submitFlow env).take 3 =
      [.abortExisting, .installFreshHandle, .wait200ms] ∧
    (env.abortedAfterWait = true →
      submitFlow env = [.abortExisting, .installFreshHandle, .wait200ms] ∧
      SubmitEffect.subscribeEvents ∉ submitFlow env ∧
      SubmitEffect.callPromptEndpoint ∉ submitFlow env ∧
      SubmitEffect.callCommandEndpoint ∉ submitFlow env ∧
      ∀ s, SubmitEffect.postToThread s ∉ submitFlow env) := by
  constructor
  · simp [submitFlow, h]
  · intro ha
    refine ⟨by simp [submitFlow, h, ha], ?_, ?_, ?_, ?_⟩ <;>
      simp [submitFlow, h, ha]

/-- C4 witness: the concrete superseded submission produces exactly the
abort–install–wait prefix and nothing else. -/
theorem submit_supersede_debounce_witness :
    submitFlow ⟨true, true, false, false, false, false⟩ =
      [.abortExisting, .installFreshHandle, .wait200ms] :=
  ((submit_supersede_debounce ⟨true, true, false, false, false, false⟩ rfl).2 rfl).1

/-! ### C5 — completion footer condition -/

/-- C5: the `finally` block posts the one-line completion footer iff the
cancellation handle is not aborted or was aborted with reason `finished`;
in particular a new-request (supersede) abort produces no footer. -/
theorem footer_posted_iff (threadId msgId : String) (parts : List Part)
    (st : EmitState) (aborted : Bool) (reason : Option AbortReason)
    (duration : String) (contextPct : Option Nat) (sessionId : String)
    (hasPort : Bool) (usedModel : Option String) :
    ((runFinally threadId msgId parts st aborted reason duration contextPct
        sessionId hasPort usedModel).2.isSome ↔
      (aborted = false ∨ reason = some .finished)) ∧
    (runFinally threadId msgId parts st true (some .newRequestStarted) duration
        contextPct sessionId hasPort usedModel).2 = none := by
  constructor
  · unfold runFinally
    split
    · simpa
    · rename_i hcond
      simpa using hcond
  · unfold runFinally
    simp

/-! ### C9 — permission-required message -/

/-- C9 counterexample: the claim says the permission prompt instructs the
user to reply with `/accept`, `/accept-always`, or `/reject`, but the
posted message says only ``Use `/accept` or `/reject` to respond.`` — it
never mentions `/accept-always`. -/
theorem permission_message_counterexample :
    ¬ ("/accept-always".data <:+:
      permissionRequestMessage
        ⟨"perm1".data, "sess1".data, "bash".data, "Run command".data,
          .strV "rm -rf *".data⟩) := by
  set_option maxRecDepth 40000 in decide

set_option maxRecDepth 4000 in
/-- C9 amended: on `permission.updated` the bridge posts a message
beginning `⚠️ **Permission Required**` that includes the permission type,
the title, and the pattern if any, instructs the user to reply with
`/accept` or `/reject` (without mentioning `/accept-always`), and records
the pending permission keyed by the thread id. -/
theorem permission_branch_spec (pending : List (Str × PendingPermission))
    (threadId : Str) (perm : PermissionInfo) (msgId directory : Str) :
    ("⚠️ **Permission Required**".data <+:
      (permissionUpdatedBranch pending threadId perm msgId directory).2) ∧
    (perm.permType <:+:
      (permissionUpdatedBranch pending threadId perm msgId directory).2) ∧
    (perm.title <:+:
      (permissionUpdatedBranch pending threadId perm msgId directory).2) ∧
    (patternStr perm.pattern ≠ [] →
      patternStr perm.pattern <:+:
        (permissionUpdatedBranch pending threadId perm msgId directory).2) ∧
    ("/accept".data <:+:
      (permissionUpdatedBranch pending threadId perm msgId directory).2) ∧
    ("/reject".data <:+:
      (permissionUpdatedBranch pending threadId perm msgId directory).2) ∧
    lookupPending (permissionUpdatedBranch pending threadId perm msgId directory).1
      threadId = some ⟨perm, msgId, directory⟩ := by
  refine ⟨?_, ?_, ?_, ?_, ?_, ?_, ?_⟩
  · refine ⟨"\n\n".data ++ "**Type:** `".data ++ perm.permType ++ "`\n".data ++
      "**Action:** ".data ++ perm.title ++ "\n".data ++
      (if patternStr perm.pattern ≠ [] then
        "**Pattern:** `".data ++ patternStr perm.pattern ++ "`\n".data
      else []) ++
      "\nUse `/accept` or `/reject` to respond.".data, ?_⟩
    show _ = permissionRequestMessage perm
    simp only [permissionRequestMessage, List.append_assoc]
    rfl
  · refine ⟨"⚠️ **Permission Required**\n\n".data ++ "**Type:** `".data,
      "`\n".data ++ "**Action:** ".data ++ perm.title ++ "\n".data ++
      (if patternStr perm.pattern ≠ [] then
        "**Pattern:** `".data ++ patternStr perm.pattern ++ "`\n".data
      else []) ++
      "\nUse `/accept` or `/reject` to respond.".data, ?_⟩
    show _ = permissionRequestMessage perm
    simp only [permissionRequestMessage, List.append_assoc]
  · refine ⟨"⚠️ **Permission Required**\n\n".data ++ "**Type:** `".data ++
      perm.permType ++ "`\n".data ++ "**Action:** ".data,
      "\n".data ++
      (if patternStr perm.pattern ≠ [] then
        "**Pattern:** `".data ++ patternStr perm.pattern ++ "`\n".data
      else []) ++
      "\nUse `/accept` or `/reject` to respond.".data, ?_⟩
    show _ = permissionRequestMessage perm
    simp only [permissionRequestMessage, List.append_assoc]
  · intro hpat
    refine ⟨"⚠️ **Permission Required**\n\n".data ++ "**Type:** `".data ++
      perm.permType ++ "`\n".data ++ "**Action:** ".data ++ perm.title ++
      "\n".data ++ "**Pattern:** `".data,
      "`\n".data ++ "\nUse `/accept` or `/reject` to respond.".data, ?_⟩
    show _ = permissionRequestMessage perm
    simp only [permissionRequestMessage, if_pos hpat, List.append_assoc]
  · refine ⟨"⚠️ **Permission Required**\n\n".data ++ "**Type:** `".data ++
      perm.permType ++ "`\n".data ++ "**Action:** ".data ++ perm.title ++
      "\n".data ++
      (if patternStr perm.pattern ≠ [] then
        "**Pattern:** `".data ++ patternStr perm.pattern ++ "`\n".data
      else []) ++ "\nUse `".data,
      "` or `/reject` to respond.".data, ?_⟩
    show _ = permissionRequestMessage perm
    simp only [permissionRequestMessage, List.append_assoc]
    rfl
  · refine ⟨"⚠️ **Permission Required**\n\n".data ++ "**Type:** `".data ++
      perm.permType ++ "`\n".data ++ "**Action:** ".data ++ perm.title ++
      "\n".data ++
      (if patternStr perm.pattern ≠ [] then
        "**Pattern:** `".data ++ patternStr perm.pattern ++ "`\n".data
      else []) ++ "\nUse `/accept` or `".data,
      "` to respond.".data, ?_⟩
    show _ = permissionRequestMessage perm
    simp only [permissionRequestMessage, List.append_assoc]
    rfl
  · simp [permissionUpdatedBranch, setPending, lookupPending, List.find?]

/-- C9 witness: the amended theorem at a concrete permission whose
pattern is present. -/
theorem permission_branch_spec_witness :
    patternStr (PatternVal.strV "rm -rf *".data) ≠ [] ∧
    ("rm -rf *".data <:+:
      (permissionUpdatedBranch [] "t1".data
        ⟨"perm1".data, "sess1".data, "bash".data, "Run command".data,
          .strV "rm -rf *".data⟩ "m1".data "/tmp".data).2) :=
  ⟨by decide,
    (permission_branch_spec [] "t1".data
      ⟨"perm1".data, "sess1".data, "bash".data, "Run command".data,
        .strV "rm -rf *".data⟩ "m1".data "/tmp".data).2.2.2.1 (by decide)⟩

/-! ### C1 — part→message dedupe across emission paths -/

/-- C1 counterexample: a part streamed into one thread (one post, row
written) is posted again by the `/resume` combined post, which performs
no row check — two Discord posts sourced from the same part across the
process lifetime, the second made while a row for the part existed. -/
theorem part_posted_twice_counterexample :
    postCount (resumeCombined "t2" "m2" [Part.text "p1" (some "hi")]
        (sendPartMessage "t1" "m1" (Part.text "p1" (some "hi")) ⟨[], [], []⟩)).posts
      "p1" = 2 ∧
    "p1" ∈ ((sendPartMessage "t1" "m1" (Part.text "p1" (some "hi"))
        ⟨[], [], []⟩).rows.map fun r => r.partId) := by
  decide

/-- C1 amended: on the streaming path (`sendPartMessage`), given the
session invariant that the in-memory sent set agrees with the thread's
rows, a part is posted iff its rendering is non-blank and no row for its
id exists for the thread, and after a successful post a row for the part
is present; the `/resume` combined post, by contrast, emits its rendered
parts without consulting existing rows, so a part may be posted a second
time there. -/
theorem sendPartMessage_posts_iff (threadId msgId : String) (p : Part)
    (st : EmitState)
    (hinv : p.idOf ∈ st.sent ↔ p.idOf ∈ partIdsForThread st.rows threadId) :
    ((sendPartMessage threadId msgId p st).posts = st.posts ++ [(p.idOf, msgId)] ↔
      trimStr (formatPart p ++ "\n\n").data ≠ [] ∧
      p.idOf ∉ partIdsForThread st.rows threadId) ∧
    ((sendPartMessage threadId msgId p st).posts ≠ st.posts →
      p.idOf ∈ partIdsForThread (sendPartMessage threadId msgId p st).rows threadId) := by
  unfold sendPartMessage
  by_cases hblank : trimStr (formatPart p ++ "\n\n").data = []
  · rw [if_pos hblank]
    constructor
    · constructor
      · intro habs
        exact absurd (congrArg List.length habs) (by simp)
      · intro hcond
        exact absurd hblank hcond.1
    · intro h
      exact absurd rfl h
  · rw [if_neg hblank]
    by_cases hsent : p.idOf ∈ st.sent
    · rw [if_pos hsent]
      constructor
      · constructor
        · intro habs
          exact absurd (congrArg List.length habs) (by simp)
        · intro hcond
          exact absurd (hinv.1 hsent) hcond.2
      · intro h
        exact absurd rfl h
    · rw [if_neg hsent]
      constructor
      · constructor
        · intro _
          exact ⟨hblank, fun hmem => hsent (hinv.2 hmem)⟩
        · intro _
          rfl
      · intro _
        simp [partIdsForThread, upsertPartRow]

/-- C1 witness: the streaming path at a fresh state posts the part and
writes its row. -/
theorem sendPartMessage_posts_iff_witness :
    (sendPartMessage "t1" "m1" (Part.text "p1" (some "hi")) ⟨[], [], []⟩).posts
      = [] ++ [("p1", "m1")] :=
  (sendPartMessage_posts_iff "t1" "m1" (Part.text "p1" (some "hi")) ⟨[], [], []⟩
      (by simp [partIdsForThread])).1.mpr (by decide)

/-! ### Splitting, joining, and fence-counting lemmas -/

theorem splitOnChar_append_sep (sep : Char) (a b : Str) :
    splitOnChar sep (a ++ sep :: b) = splitOnChar sep a ++ splitOnChar sep b := by
  induction a with
  | nil => simp [splitOnChar]
  | cons c cs ih =>
    by_cases hc : c = sep
    · rw [List.cons_append,
        show splitOnChar sep (c :: (cs ++ sep :: b))
          = [] :: splitOnChar sep (cs ++ sep :: b) from by simp [splitOnChar, hc],
        show splitOnChar sep (c :: cs) = [] :: splitOnChar sep cs from by
          simp [splitOnChar, hc],
        ih, List.cons_append]
    · simp only [List.cons_append, splitOnChar, if_neg hc]
      rw [List.append_eq, ih]
      cases h : splitOnChar sep cs with
      | nil => exact absurd h (splitOnChar_ne_nil sep cs)
      | cons l ls => simp

theorem splitLinesChar_append_newline (a b : Str) :
    splitLinesChar (a ++ '\n' :: b) = splitLinesChar a ++ splitLinesChar b :=
  splitOnChar_append_sep '\n' a b

theorem splitLinesChar_intercalNL (ls : List Str) (hne : ls ≠ [])
    (h : ∀ l ∈ ls, '\n' ∉ l) : splitLinesChar (intercalNL ls) = ls := by
  induction ls with
  | nil => exact absurd rfl hne
  | cons l ls ih =>
    cases ls with
    | nil =>
      show splitLinesChar (intercalNL [l]) = [l]
      exact splitLinesChar_no_newline l (h l (List.mem_cons_self l []))
    | cons l' ls' =>
      show splitLinesChar (l ++ '\n' :: intercalNL (l' :: ls')) = l :: l' :: ls'
      rw [splitLinesChar_append_newline,
        splitLinesChar_no_newline l (h l (List.mem_cons_self l _)),
        ih (by simp) fun x hx => h x (List.mem_cons.2 (Or.inr hx))]
      rfl

theorem fenceInit_nil : fenceInit [] = false := by decide

theorem fenceInit_fence_append (xs : Str) : fenceInit (fence ++ xs) = true := by
  simp [fenceInit, fence, List.take_append_of_le_length]

theorem fenceInit_fence : fenceInit fence = true := by decide

theorem newline_not_mem_fence : '\n' ∉ fence := by decide

theorem fenceCount_nil : fenceCount [] = 0 := by decide

theorem fenceCount_single (cs : Str) (h : '\n' ∉ cs) :
    fenceCount cs = if fenceInit cs then 1 else 0 := by
  unfold fenceCount
  rw [splitLinesChar_no_newline cs h]
  cases hf : fenceInit cs <;> simp [List.filter, hf]

theorem fenceCount_line_append (body rest : Str) (h : '\n' ∉ body) :
    fenceCount (body ++ '\n' :: rest) =
      (if fenceInit body then 1 else 0) + fenceCount rest := by
  unfold fenceCount
  rw [splitLinesChar_append_newline, splitLinesChar_no_newline body h]
  cases hf : fenceInit body
  · simp [List.filter, hf]
  · simp [List.filter, hf]
    omega

theorem NLseq_single (body : Str) (h : '\n' ∉ body) : NLseq (body ++ ['\n']) := by
  have : body ++ ['\n'] = body ++ '\n' :: ([] : Str) := rfl
  rw [this]
  exact NLseq.line body [] h NLseq.nil

theorem NLseq_append {a : Str} (b : Str) (ha : NLseq a) (hb : NLseq b) :
    NLseq (a ++ b) := by
  induction ha with
  | nil => simpa using hb
  | line body rest hbody _ ih =>
    rw [List.append_assoc, List.cons_append]
    exact NLseq.line body (rest ++ b) hbody ih

theorem fenceCount_append_of_NLseq {a : Str} (b : Str) (ha : NLseq a) :
    fenceCount (a ++ b) = fenceCount a + fenceCount b := by
  induction ha with
  | nil => simp [fenceCount_nil]
  | line body rest hbody _ ih =>
    rw [List.append_assoc, List.cons_append,
      fenceCount_line_append body _ hbody, ih,
      fenceCount_line_append body rest hbody]
    omega

/-! ### Backtick-escaping lemmas -/

theorem escapeCode_of_not_mem (cs : Str) (h : backtick ∉ cs) :
    escapeCode cs = cs := by
  induction cs with
  | nil => rfl
  | cons c cs ih =>
    have hc : c ≠ backtick := fun hh => h (hh ▸ List.mem_cons_self c cs)
    have hcs : backtick ∉ cs := fun hh => h (List.mem_cons.2 (Or.inr hh))
    simp [escapeCode, hc, ih hcs]

theorem escapeCode_splitLines (cs : Str) :
    splitLinesChar (escapeCode cs) = (splitLinesChar cs).map escapeCode := by
  simp only [splitLinesChar]
  induction cs with
  | nil => rfl
  | cons c cs ih =>
    obtain ⟨l, ls, hE⟩ : ∃ l ls, splitOnChar '\n' (escapeCode cs) = l :: ls := by
      cases h : splitOnChar '\n' (escapeCode cs) with
      | nil => exact absurd h (splitOnChar_ne_nil _ _)
      | cons l ls => exact ⟨l, ls, rfl⟩
    obtain ⟨m, ms, hC⟩ : ∃ m ms, splitOnChar '\n' cs = m :: ms := by
      cases h : splitOnChar '\n' cs with
      | nil => exact absurd h (splitOnChar_ne_nil _ _)
      | cons m ms => exact ⟨m, ms, rfl⟩
    rw [hE, hC] at ih
    obtain ⟨hl, hls⟩ := List.cons.inj ih
    by_cases hn : c = '\n'
    · subst hn
      have hb : ('\n' : Char) ≠ backtick := by decide
      rw [show escapeCode ('\n' :: cs) = '\n' :: escapeCode cs from by
        simp [escapeCode, hb]]
      rw [show splitOnChar '\n' ('\n' :: escapeCode cs)
        = [] :: splitOnChar '\n' (escapeCode cs) from by simp [splitOnChar]]
      rw [show splitOnChar '\n' ('\n' :: cs) = [] :: splitOnChar '\n' cs from by
        simp [splitOnChar]]
      rw [hE, hC, hl, hls]
      simp [escapeCode]
    · by_cases hbt : c = backtick
      · subst hbt
        have h1 : ('\\' : Char) ≠ '\n' := by decide
        have h2 : backtick ≠ '\n' := by decide
        rw [show escapeCode (backtick :: cs) = '\\' :: backtick :: escapeCode cs from by
          simp [escapeCode]]
        rw [show splitOnChar '\n' ('\\' :: backtick :: escapeCode cs)
          = ('\\' :: backtick :: l) :: ls from by simp [splitOnChar, h1, h2, hE]]
        rw [show splitOnChar '\n' (backtick :: cs) = (backtick :: m) :: ms from by
          simp [splitOnChar, h2, hC]]
        rw [hl, hls]
        simp [escapeCode]
      · rw [show escapeCode (c :: cs) = c :: escapeCode cs from by
          simp [escapeCode, hbt]]
        rw [show splitOnChar '\n' (c :: escapeCode cs) = (c :: l) :: ls from by
          simp [splitOnChar, hn, hE]]
        rw [show splitOnChar '\n' (c :: cs) = (c :: m) :: ms from by
          simp [splitOnChar, hn, hC]]
        rw [hl, hls]
        simp [escapeCode, hbt]

theorem fenceInit_cons_ne (d : Char) (ds : Str) (hd : d ≠ backtick) :
    fenceInit (d :: ds) = false := by
  simp only [fenceInit, fence, List.take_succ_cons, List.cons_beq_cons]
  rw [Bool.and_eq_false_iff]
  left
  simpa using hd

theorem escapeCode_not_fenceInit (cs : Str) : fenceInit (escapeCode cs) = false := by
  cases cs with
  | nil => decide
  | cons c cs =>
    by_cases hc : c = backtick
    · subst hc
      rw [show escapeCode (backtick :: cs) = '\\' :: backtick :: escapeCode cs from by
        simp [escapeCode]]
      exact fenceInit_cons_ne '\\' _ (by decide)
    · rw [show escapeCode (c :: cs) = c :: escapeCode cs from by simp [escapeCode, hc]]
      exact fenceInit_cons_ne c _ hc

theorem escapeCode_no_newline {cs : Str} (h : '\n' ∉ cs) :
    '\n' ∉ escapeCode cs := by
  induction cs with
  | nil => simp [escapeCode]
  | cons c cs ih =>
    have hc : c ≠ '\n' := fun hh => h (hh ▸ List.mem_cons_self c cs)
    have hcs : '\n' ∉ cs := fun hh => h (List.mem_cons.2 (Or.inr hh))
    by_cases hb : c = backtick
    · subst hb
      rw [show escapeCode (backtick :: cs) = '\\' :: backtick :: escapeCode cs from by
        simp [escapeCode]]
      intro hmem
      rcases List.mem_cons.1 hmem with h1 | hmem
      · exact absurd h1 (by decide)
      · rcases List.mem_cons.1 hmem with h2 | h3
        · exact absurd h2 (by decide)
        · exact ih hcs h3
    · rw [show escapeCode (c :: cs) = c :: escapeCode cs from by simp [escapeCode, hb]]
      intro hmem
      rcases List.mem_cons.1 hmem with h1 | h2
      · exact hc h1.symm
      · exact ih hcs h2

/-! ### Shape of the lexed token stream -/

theorem linesOf_cons (t : MdToken) (ts : List MdToken) :
    linesOf (t :: ts) = linesOfToken t ++ linesOf ts := by
  simp [linesOf]

theorem lexGo_some_through (lang : Str) (acc : List Str) (xs : List Str)
    (f : Str) (rest : List Str) (hxs : ∀ x ∈ xs, fenceInit x = false)
    (hf : fenceInit f = true) :
    lexGo (some (lang, acc)) (xs ++ f :: rest) =
      .code lang (intercalNL (acc.reverse ++ xs)) :: lexGo none rest := by
  induction xs generalizing acc with
  | nil => simp [lexGo, hf]
  | cons x xs ih =>
    have hx : fenceInit x = false := hxs x (List.mem_cons_self _ _)
    rw [List.cons_append,
      show lexGo (some (lang, acc)) (x :: (xs ++ f :: rest))
        = lexGo (some (lang, x :: acc)) (xs ++ f :: rest) from by simp [lexGo, hx],
      ih (x :: acc) fun y hy => hxs y (List.mem_cons.2 (Or.inr hy))]
    simp [List.append_assoc]

theorem canon_code_intercal (lang : Str) (acc : List Str) (hlang : '\n' ∉ lang)
    (hacc : ∀ x ∈ acc, '\n' ∉ x ∧ fenceInit x = false) (ts : List MdToken)
    (hts : CanonToks ts) :
    CanonToks (.code lang (intercalNL acc.reverse) :: ts) := by
  refine CanonToks.codeTok lang _ ts hlang ?_ hts
  cases hrev : acc.reverse with
  | nil =>
    intro x hx
    have : x = [] := by
      simpa [intercalNL, splitLinesChar, splitOnChar] using hx
    simpa [this] using fenceInit_nil
  | cons a as =>
    rw [← hrev,
      splitLinesChar_intercalNL acc.reverse (by simp [hrev]) fun x hx =>
        (hacc x (List.mem_reverse.1 hx)).1]
    intro x hx
    exact (hacc x (List.mem_reverse.1 hx)).2

theorem lexGo_canon (ls : List Str) (hnl : ∀ l ∈ ls, '\n' ∉ l) :
    CanonToks (lexGo none ls) ∧
    ∀ (lang : Str) (acc : List Str), '\n' ∉ lang →
      (∀ x ∈ acc, '\n' ∉ x ∧ fenceInit x = false) →
      CanonToks (lexGo (some (lang, acc)) ls) := by
  induction ls with
  | nil =>
    refine ⟨CanonToks.nil, ?_⟩
    intro lang acc hlang hacc
    exact canon_code_intercal lang acc hlang hacc [] CanonToks.nil
  | cons l ls ih =>
    have hl : '\n' ∉ l := hnl l (List.mem_cons_self _ _)
    have hls : ∀ x ∈ ls, '\n' ∉ x := fun x hx => hnl x (List.mem_cons.2 (Or.inr hx))
    obtain ⟨ihn, ihs⟩ := ih hls
    constructor
    · cases ls with
      | nil =>
        by_cases hle : l = []
        · rw [show lexGo none [l] = [] from by simp [lexGo, hle]]
          exact CanonToks.nil
        · by_cases hfen : fenceInit l = true
          · rw [show lexGo none [l] = [.code (l.drop 3) []] from by
              simp [lexGo, hle, hfen]]
            refine CanonToks.codeTok _ _ []
              (fun hmem => hl (List.mem_of_mem_drop hmem)) ?_ CanonToks.nil
            intro x hx
            have : x = [] := by simpa [splitLinesChar, splitOnChar] using hx
            simpa [this] using fenceInit_nil
          · rw [show lexGo none [l] = [.other l] from by simp [lexGo, hle, hfen]]
            exact CanonToks.lastOther l hle hl (by simpa using hfen)
      | cons l' ls' =>
        by_cases hfen : fenceInit l = true
        · rw [show lexGo none (l :: l' :: ls')
            = lexGo (some (l.drop 3, [])) (l' :: ls') from by simp [lexGo, hfen]]
          exact ihs (l.drop 3) [] (fun hmem => hl (List.mem_of_mem_drop hmem))
            (by simp)
        · rw [show lexGo none (l :: l' :: ls')
            = .other (l ++ ['\n']) :: lexGo none (l' :: ls') from by
              simp [lexGo, hfen]]
          exact CanonToks.otherNL l _ hl (by simpa using hfen) ihn
    · intro lang acc hlang hacc
      by_cases hfen : fenceInit l = true
      · rw [show lexGo (some (lang, acc)) (l :: ls)
          = .code lang (intercalNL acc.reverse) :: lexGo none ls from by
            simp [lexGo, hfen]]
        exact canon_code_intercal lang acc hlang hacc _ ihn
      · rw [show lexGo (some (lang, acc)) (l :: ls)
          = lexGo (some (lang, l :: acc)) ls from by simp [lexGo, hfen]]
        refine ihs lang (l :: acc) hlang ?_
        intro x hx
        rcases List.mem_cons.1 hx with h | h
        · subst h
          exact ⟨hl, by simpa using hfen⟩
        · exact hacc x h

theorem markedLex_canon (content : Str) : CanonToks (markedLex content) :=
  (lexGo_canon (splitLinesChar content) (mem_splitLinesChar_no_newline content)).1

/-! ### Well-formedness of the chunker's line lists -/

theorem WFLines_code_lines (lang : Str) (xs : List Str) (R : List LineInfo)
    (hlang : '\n' ∉ lang)
    (hxs : ∀ x ∈ xs, '\n' ∉ x ∧ fenceInit x = false) (hR : WFLines true R) :
    WFLines true ((xs.map fun cl =>
      (⟨cl ++ ['\n'], true, lang, false, false⟩ : LineInfo)) ++ R) := by
  induction xs with
  | nil => simpa using hR
  | cons x xs ih =>
    have hx := hxs x (List.mem_cons_self _ _)
    rw [List.map_cons, List.cons_append]
    exact WFLines.code x lang _ hx.1 hx.2 hlang
      (ih fun y hy => hxs y (List.mem_cons.2 (Or.inr hy)))

theorem WFLines_code_token (lang text : Str) (rest : List LineInfo)
    (hlang : '\n' ∉ lang)
    (htext : ∀ x ∈ splitLinesChar text, fenceInit x = false)
    (hrest : WFLines false rest) :
    WFLines false (linesOfToken (.code lang text) ++ rest) := by
  show WFLines false
    ((⟨fence ++ lang ++ ['\n'], false, lang, true, false⟩ ::
      ((splitLinesChar text).map fun cl => ⟨cl ++ ['\n'], true, lang, false, false⟩) ++
      [⟨fence ++ ['\n'], false, [], false, true⟩]) ++ rest)
  simp only [List.cons_append, List.append_assoc, List.singleton_append]
  refine WFLines.openF lang _ hlang ?_
  exact WFLines_code_lines lang (splitLinesChar text) _ hlang
    (fun x hx => ⟨mem_splitLinesChar_no_newline text x hx, htext x hx⟩)
    (WFLines.closeF rest hrest)

theorem WFLines_of_canon (ts : List MdToken) (h : CanonToks ts) :
    WFLines false (linesOf ts) := by
  induction h with
  | nil => exact WFLines.nil
  | lastOther l hne hnl hfen =>
    rw [show linesOf [.other l] = [⟨l, false, [], false, false⟩] from by
      simp [linesOf, linesOfToken, rawToLines, splitLinesChar_no_newline l hnl,
        rawToLines.go, hne]]
    exact WFLines.lastPlain l hne hnl hfen
  | otherNL l ts hnl hfen _ ih =>
    have hsplit : splitOnChar '\n' (l ++ ['\n']) = [l, []] := by
      have hh := splitLinesChar_append_newline l []
      simp only [splitLinesChar] at hh
      rw [show l ++ ['\n'] = l ++ '\n' :: ([] : Str) from rfl, hh,
        show splitOnChar '\n' l = splitLinesChar l from rfl,
        splitLinesChar_no_newline l hnl]
      rfl
    rw [linesOf_cons,
      show linesOfToken (.other (l ++ ['\n']))
        = [⟨l ++ ['\n'], false, [], false, false⟩] from by
        simp [linesOfToken, rawToLines, splitLinesChar, hsplit, rawToLines.go]]
    exact WFLines.plain l _ hnl hfen ih
  | codeTok lang text ts hlang htext _ ih =>
    rw [linesOf_cons]
    exact WFLines_code_token lang text _ hlang htext ih

/-! ### Fence balance of the chunking loop -/

theorem newline_not_mem_fence_append {lang : Str} (hlang : '\n' ∉ lang) :
    '\n' ∉ fence ++ lang := by
  intro h
  rcases List.mem_append.1 h with h | h
  · exact newline_not_mem_fence h
  · exact hlang h

theorem fenceCount_header (lang tail : Str) (hlang : '\n' ∉ lang) :
    fenceCount (fence ++ lang ++ '\n' :: tail) = 1 + fenceCount tail := by
  rw [show fence ++ lang ++ '\n' :: tail = (fence ++ lang) ++ '\n' :: tail from by
    simp [List.append_assoc]]
  rw [fenceCount_line_append _ _ (newline_not_mem_fence_append hlang),
    fenceInit_fence_append, if_pos rfl]

theorem NLseq_header (lang tail : Str) (hlang : '\n' ∉ lang) (htail : NLseq tail) :
    NLseq (fence ++ lang ++ '\n' :: tail) := by
  rw [show fence ++ lang ++ '\n' :: tail = (fence ++ lang) ++ '\n' :: tail from by
    simp [List.append_assoc]]
  exact NLseq.line _ _ (newline_not_mem_fence_append hlang) htail

theorem fenceCount_fence_nl : fenceCount (fence ++ ['\n']) = 1 := by
  rw [show fence ++ ['\n'] = fence ++ '\n' :: ([] : Str) from rfl,
    fenceCount_line_append _ _ newline_not_mem_fence, fenceInit_fence, if_pos rfl,
    fenceCount_nil]

theorem NLseq_fence_nl : NLseq (fence ++ ['\n']) :=
  NLseq_single fence newline_not_mem_fence

theorem fenceCount_close (cur : Str) (hnl : NLseq cur) :
    fenceCount (cur ++ fence ++ ['\n']) = fenceCount cur + 1 := by
  rw [List.append_assoc, fenceCount_append_of_NLseq _ hnl, fenceCount_fence_nl]

theorem splitLoop_plain_none (N : Nat) (t : Str) (ls : List LineInfo) (cur : Str) :
    splitLoop N (⟨t, false, [], false, false⟩ :: ls) cur none =
      if cur.length + t.length > N ∧ cur ≠ [] then cur :: splitLoop N ls t none
      else splitLoop N ls (cur ++ t) none := by
  simp [splitLoop]

theorem splitLoop_open_none (N : Nat) (lang : Str) (ls : List LineInfo) (cur : Str) :
    splitLoop N (⟨fence ++ lang ++ ['\n'], false, lang, true, false⟩ :: ls) cur none =
      if cur.length + (fence ++ lang ++ ['\n']).length > N ∧ cur ≠ [] then
        cur :: splitLoop N ls (fence ++ lang ++ ['\n']) (some lang)
      else splitLoop N ls (cur ++ (fence ++ lang ++ ['\n'])) (some lang) := by
  simp [splitLoop]

theorem splitLoop_code_some (N : Nat) (body lang : Str) (ls : List LineInfo)
    (cur : Str) (lg : Str) :
    splitLoop N (⟨body ++ ['\n'], true, lang, false, false⟩ :: ls) cur (some lg) =
      if cur.length + (body ++ ['\n']).length > N ∧ cur ≠ [] then
        (cur ++ fence ++ ['\n']) ::
          splitLoop N ls (fence ++ lang ++ ['\n'] ++ (body ++ ['\n'])) (some lang)
      else splitLoop N ls (cur ++ (body ++ ['\n'])) (some lang) := by
  simp [splitLoop]

theorem splitLoop_close_some (N : Nat) (ls : List LineInfo) (cur : Str) (lg : Str) :
    splitLoop N (⟨fence ++ ['\n'], false, [], false, true⟩ :: ls) cur (some lg) =
      if cur.length + (fence ++ ['\n']).length > N ∧ cur ≠ [] then
        (cur ++ fence ++ ['\n']) :: splitLoop N ls [] none
      else splitLoop N ls (cur ++ (fence ++ ['\n'])) none := by
  simp [splitLoop]

theorem splitLoop_nil_eq (N : Nat) (cur : Str) (curLang : Option Str) :
    splitLoop N [] cur curLang = if cur ≠ [] then [cur] else [] := by
  simp [splitLoop]

theorem splitLoop_balanced_aux (N : Nat) {flag : Bool} {lines : List LineInfo}
    (hwf : WFLines flag lines) :
    ∀ (cur : Str) (curLang : Option Str),
      curLang.isSome = flag → NLseq cur →
      fenceCount cur % 2 = (if flag then 1 else 0) →
      ∀ chunk ∈ splitLoop N lines cur curLang, fenceCount chunk % 2 = 0 := by
  induction hwf with
  | nil =>
    intro cur curLang hsome hnlc hfc chunk hchunk
    rw [splitLoop_nil_eq] at hchunk
    split at hchunk
    · rw [List.mem_singleton.1 hchunk]
      simpa using hfc
    · simp at hchunk
  | lastPlain t hne hnl hfen =>
    intro cur curLang hsome hnlc hfc chunk hchunk
    cases curLang with
    | some lg => simp at hsome
    | none =>
    rw [splitLoop_plain_none] at hchunk
    split at hchunk
    · simp only [List.mem_cons] at hchunk
      rcases hchunk with rfl | hchunk
      · simpa using hfc
      · rw [splitLoop_nil_eq, if_pos hne] at hchunk
        rw [List.mem_singleton.1 hchunk, fenceCount_single t hnl, hfen]
        simp
    · have hcne : cur ++ t ≠ [] := by
        intro h
        exact hne (List.append_eq_nil.1 h).2
      rw [splitLoop_nil_eq, if_pos hcne] at hchunk
      rw [List.mem_singleton.1 hchunk,
        fenceCount_append_of_NLseq t hnlc, fenceCount_single t hnl, hfen]
      simp only [Bool.false_eq_true, if_false] at hfc ⊢
      omega
  | plain body rest hnl hfen _ ih =>
    intro cur curLang hsome hnlc hfc chunk hchunk
    cases curLang with
    | some lg => simp at hsome
    | none =>
    simp only [Bool.false_eq_true, if_false] at hfc
    have hbodyfc : fenceCount (body ++ ['\n']) = 0 := by
      rw [show body ++ ['\n'] = body ++ '\n' :: ([] : Str) from rfl,
        fenceCount_line_append _ _ hnl, hfen, fenceCount_nil]
      simp
    rw [splitLoop_plain_none] at hchunk
    split at hchunk
    · simp only [List.mem_cons] at hchunk
      rcases hchunk with rfl | hchunk
      · simpa using hfc
      · exact ih (body ++ ['\n']) none rfl (NLseq_single body hnl)
          (by simp [hbodyfc]) chunk hchunk
    · refine ih (cur ++ (body ++ ['\n'])) none rfl
        (NLseq_append _ hnlc (NLseq_single body hnl)) ?_ chunk hchunk
      rw [fenceCount_append_of_NLseq _ hnlc, hbodyfc]
      simpa using hfc
  | openF lang rest hlang _ ih =>
    intro cur curLang hsome hnlc hfc chunk hchunk
    cases curLang with
    | some lg => simp at hsome
    | none =>
    simp only [Bool.false_eq_true, if_false] at hfc
    have hheadfc : fenceCount (fence ++ lang ++ ['\n']) = 1 := by
      rw [show fence ++ lang ++ ['\n'] = fence ++ lang ++ '\n' :: ([] : Str) from by
        simp, fenceCount_header lang [] hlang, fenceCount_nil]
    have hheadnl : NLseq (fence ++ lang ++ ['\n']) := by
      rw [show fence ++ lang ++ ['\n'] = fence ++ lang ++ '\n' :: ([] : Str) from by
        simp]
      exact NLseq_header lang [] hlang NLseq.nil
    rw [splitLoop_open_none] at hchunk
    split at hchunk
    · simp only [List.mem_cons] at hchunk
      rcases hchunk with rfl | hchunk
      · simpa using hfc
      · exact ih (fence ++ lang ++ ['\n']) (some lang) rfl hheadnl
          (by rw [hheadfc]; decide) chunk hchunk
    · refine ih (cur ++ (fence ++ lang ++ ['\n'])) (some lang) rfl
        (NLseq_append _ hnlc hheadnl) ?_ chunk hchunk
      rw [fenceCount_append_of_NLseq _ hnlc, hheadfc]
      simp
      omega
  | code body lang rest hnl hfen hlang' _ ih =>
    intro cur curLang hsome hnlc hfc chunk hchunk
    obtain ⟨lg, rfl⟩ := Option.isSome_iff_exists.1 hsome
    simp only [if_true] at hfc
    have hbodyfc : fenceCount (body ++ ['\n']) = 0 := by
      rw [show body ++ ['\n'] = body ++ '\n' :: ([] : Str) from rfl,
        fenceCount_line_append _ _ hnl, hfen, fenceCount_nil]
      simp
    have hnewnl : NLseq (fence ++ lang ++ ['\n'] ++ (body ++ ['\n'])) := by
      rw [show fence ++ lang ++ ['\n'] ++ (body ++ ['\n'])
        = fence ++ lang ++ '\n' :: (body ++ ['\n']) from by simp]
      exact NLseq_header lang _ hlang' (NLseq_single body hnl)
    have hnewfc : fenceCount (fence ++ lang ++ ['\n'] ++ (body ++ ['\n'])) = 1 := by
      rw [show fence ++ lang ++ ['\n'] ++ (body ++ ['\n'])
        = fence ++ lang ++ '\n' :: (body ++ ['\n']) from by simp,
        fenceCount_header lang _ hlang', hbodyfc]
    rw [splitLoop_code_some] at hchunk
    split at hchunk
    · simp only [List.mem_cons] at hchunk
      rcases hchunk with rfl | hchunk
      · rw [fenceCount_close cur hnlc]
        omega
      · exact ih (fence ++ lang ++ ['\n'] ++ (body ++ ['\n'])) (some lang) rfl
          hnewnl (by rw [hnewfc]; decide) chunk hchunk
    · refine ih (cur ++ (body ++ ['\n'])) (some lang) rfl
        (NLseq_append _ hnlc (NLseq_single body hnl)) ?_ chunk hchunk
      rw [fenceCount_append_of_NLseq _ hnlc, hbodyfc]
      simpa using hfc
  | closeF rest _ ih =>
    intro cur curLang hsome hnlc hfc chunk hchunk
    obtain ⟨lg, rfl⟩ := Option.isSome_iff_exists.1 hsome
    simp only [if_true] at hfc
    rw [splitLoop_close_some] at hchunk
    split at hchunk
    · simp only [List.mem_cons] at hchunk
      rcases hchunk with rfl | hchunk
      · rw [fenceCount_close cur hnlc]
        omega
      · exact ih [] none rfl NLseq.nil (by simp [fenceCount_nil]) chunk hchunk
    · refine ih (cur ++ (fence ++ ['\n'])) none rfl
        (NLseq_append _ hnlc NLseq_fence_nl) ?_ chunk hchunk
      rw [fenceCount_append_of_NLseq _ hnlc, fenceCount_fence_nl]
      simp
      omega

/-! ### C3 — fence balance of emitted chunks -/

/-- C3 counterexample: content that fits in one chunk is returned verbatim
by the `content.length <= maxLength` short-circuit, so an input whose own
fences are unbalanced (an unclosed block) yields an unbalanced chunk. -/
theorem chunk_balance_counterexample :
    splitMarkdownForDiscord "```js\nhi".data 2000 = ["```js\nhi".data] ∧
    fenceCount "```js\nhi".data % 2 = 1 := by
  constructor
  · rfl
  · decide

/-- C3 amended: on the multi-chunk path (content longer than `maxLength`)
every chunk `splitMarkdownForDiscord` emits is fence-balanced — it
contains an even number of fence lines, a block cut at a boundary being
closed with a synthetic ``` fence and reopened with the language fence;
the single-chunk short-circuit returns the content verbatim and is
balanced only when the input is. -/
theorem splitMarkdown_balanced (content : Str) (N : Nat) (h : N < content.length) :
    ∀ chunk ∈ splitMarkdownForDiscord content N, fenceCount chunk % 2 = 0 := by
  intro chunk hchunk
  unfold splitMarkdownForDiscord at hchunk
  rw [if_neg (by omega)] at hchunk
  exact splitLoop_balanced_aux N
    (WFLines_of_canon _ (markedLex_canon content)) [] none rfl NLseq.nil
    (by simp [fenceCount_nil]) chunk hchunk

/-- C3 witness: a concrete oversized code block splits into chunks, the
first of which is balanced. -/
theorem splitMarkdown_balanced_witness :
    fenceCount "```js\nint a;\n```\n".data % 2 = 0 :=
  splitMarkdown_balanced "```js\nint a;\nint b;\nint c;\n```\n".data 14 (by decide)
    "```js\nint a;\n```\n".data (by decide)

/-! ### C2 — chunk length bound and content preservation -/

theorem splitLoop_plainflag_none (N : Nat) (l : LineInfo) (ls : List LineInfo)
    (cur : Str) (h1 : l.inCodeBlock = false) (h2 : l.isOpeningFence = false)
    (h3 : l.isClosingFence = false) :
    splitLoop N (l :: ls) cur none =
      if cur.length + l.text.length > N ∧ cur ≠ [] then
        cur :: splitLoop N ls l.text none
      else splitLoop N ls (cur ++ l.text) none := by
  cases l with
  | mk text inC lang op cl =>
    simp only at h1 h2 h3
    subst h1; subst h2; subst h3
    simp [splitLoop]

theorem le_maxTextLen (lines : List LineInfo) :
    ∀ l ∈ lines, l.text.length ≤ maxTextLen lines := by
  induction lines with
  | nil => intro l h; simp at h
  | cons x xs ih =>
    intro l h
    rcases List.mem_cons.1 h with rfl | h
    · simp [maxTextLen]
    · have hx := ih l h
      simp only [maxTextLen, List.foldr_cons] at hx ⊢
      omega

theorem le_maxFenceLen (lines : List LineInfo) :
    ∀ l ∈ lines, l.lang.length + 4 ≤ maxFenceLen lines := by
  induction lines with
  | nil => intro l h; simp at h
  | cons x xs ih =>
    intro l h
    rcases List.mem_cons.1 h with rfl | h
    · simp [maxFenceLen]
    · have hx := ih l h
      simp only [maxFenceLen, List.foldr_cons] at hx ⊢
      omega

theorem splitLoop_length_bound (N K F : Nat) :
    ∀ (lines : List LineInfo) (cur : Str) (curLang : Option Str),
      (∀ l ∈ lines, l.text.length ≤ K ∧ l.lang.length + 4 ≤ F) →
      cur.length ≤ max N (K + F) →
      ∀ chunk ∈ splitLoop N lines cur curLang,
        chunk.length ≤ max N (K + F) + 4 := by
  have hmax1 : N ≤ max N (K + F) := Nat.le_max_left _ _
  have hmax2 : K + F ≤ max N (K + F) := Nat.le_max_right _ _
  intro lines
  induction lines with
  | nil =>
    intro cur curLang _ hcur chunk hchunk
    rw [splitLoop_nil_eq] at hchunk
    split at hchunk
    · rw [List.mem_singleton.1 hchunk]
      omega
    · simp at hchunk
  | cons l ls ih =>
    intro cur curLang hKF hcur chunk hchunk
    obtain ⟨hlK, hlF⟩ := hKF l (List.mem_cons_self _ _)
    have hKFrest : ∀ x ∈ ls, x.text.length ≤ K ∧ x.lang.length + 4 ≤ F :=
      fun x hx => hKF x (List.mem_cons.2 (Or.inr hx))
    have hclosed : (if curLang.isSome then cur ++ fence ++ ['\n'] else cur).length
        ≤ max N (K + F) + 4 := by
      split
      · simp only [List.length_append, List.length_cons, List.length_nil]
        have : fence.length = 3 := by decide
        omega
      · omega
    simp only [splitLoop] at hchunk
    split at hchunk
    · rename_i hcut
      split at hchunk
      · rcases List.mem_cons.1 hchunk with rfl | hchunk
        · exact hclosed
        · exact ih [] none hKFrest (by simp) chunk hchunk
      · split at hchunk
        · rcases List.mem_cons.1 hchunk with rfl | hchunk
          · exact hclosed
          · refine ih _ _ hKFrest ?_ chunk hchunk
            have hfl : fence.length = 3 := by decide
            split
            · simp only [List.length_append, List.length_cons, List.length_nil]
              omega
            · simp only [List.length_append, List.length_cons, List.length_nil]
              omega
        · rcases List.mem_cons.1 hchunk with rfl | hchunk
          · exact hclosed
          · exact ih _ _ hKFrest (by omega) chunk hchunk
    · rename_i hncut
      refine ih _ _ hKFrest ?_ chunk hchunk
      by_cases hce : cur = []
      · subst hce
        have : l.text.length ≤ max N (K + F) := by omega
        simpa using this
      · have hle : cur.length + l.text.length ≤ N := by
          by_contra hgt
          exact hncut ⟨by omega, hce⟩
        simp only [List.length_append]
        omega

theorem splitLoop_join_plain (N : Nat) :
    ∀ (lines : List LineInfo) (cur : Str),
      (∀ l ∈ lines, l.inCodeBlock = false ∧ l.isOpeningFence = false ∧
        l.isClosingFence = false) →
      (splitLoop N lines cur none).flatten = cur ++ (lines.map (·.text)).flatten := by
  intro lines
  induction lines with
  | nil =>
    intro cur _
    rw [splitLoop_nil_eq]
    split
    · simp
    · rename_i hce
      simp only [ne_eq, Decidable.not_not] at hce
      simp [hce]
  | cons l ls ih =>
    intro cur hflags
    obtain ⟨h1, h2, h3⟩ := hflags l (List.mem_cons_self _ _)
    have hrest : ∀ x ∈ ls, x.inCodeBlock = false ∧ x.isOpeningFence = false ∧
        x.isClosingFence = false := fun x hx => hflags x (List.mem_cons.2 (Or.inr hx))
    rw [splitLoop_plainflag_none N l ls cur h1 h2 h3]
    split
    · rw [List.flatten_cons, ih l.text hrest]
      simp [List.append_assoc]
    · rw [ih (cur ++ l.text) hrest]
      simp [List.append_assoc]

theorem lexGo_none_noFence (ls : List Str) (hnl : ∀ l ∈ ls, '\n' ∉ l)
    (hff : ∀ l ∈ ls, fenceInit l = false) :
    ((linesOf (lexGo none ls)).map (·.text)).flatten = intercalNL ls ∧
    ∀ li ∈ linesOf (lexGo none ls), li.inCodeBlock = false ∧
      li.isOpeningFence = false ∧ li.isClosingFence = false := by
  induction ls with
  | nil =>
    constructor
    · rfl
    · intro li h
      simp [linesOf, lexGo] at h
  | cons l ls ih =>
    have hl : '\n' ∉ l := hnl l (List.mem_cons_self _ _)
    have hfl : fenceInit l = false := hff l (List.mem_cons_self _ _)
    have hnls : ∀ x ∈ ls, '\n' ∉ x := fun x hx => hnl x (List.mem_cons.2 (Or.inr hx))
    have hffs : ∀ x ∈ ls, fenceInit x = false :=
      fun x hx => hff x (List.mem_cons.2 (Or.inr hx))
    obtain ⟨ihj, ihf⟩ := ih hnls hffs
    cases ls with
    | nil =>
      by_cases hle : l = []
      · subst hle
        rw [show lexGo none [([] : Str)] = [] from by simp [lexGo]]
        exact ⟨rfl, by intro li h; simp [linesOf] at h⟩
      · rw [show lexGo none [l] = [.other l] from by simp [lexGo, hle, hfl]]
        have hlines : linesOf [MdToken.other l] = [⟨l, false, [], false, false⟩] := by
          simp [linesOf, linesOfToken, rawToLines, splitLinesChar_no_newline l hl,
            rawToLines.go, hle]
        rw [hlines]
        constructor
        · simp [intercalNL]
        · intro li h
          rw [List.mem_singleton.1 h]
          exact ⟨rfl, rfl, rfl⟩
    | cons l' ls' =>
      rw [show lexGo none (l :: l' :: ls')
        = .other (l ++ ['\n']) :: lexGo none (l' :: ls') from by simp [lexGo, hfl]]
      have hsplit : splitOnChar '\n' (l ++ ['\n']) = [l, []] := by
        have hh := splitLinesChar_append_newline l []
        simp only [splitLinesChar] at hh
        rw [show l ++ ['\n'] = l ++ '\n' :: ([] : Str) from rfl, hh,
          show splitOnChar '\n' l = splitLinesChar l from rfl,
          splitLinesChar_no_newline l hl]
        rfl
      have hlines : linesOfToken (.other (l ++ ['\n']))
          = [⟨l ++ ['\n'], false, [], false, false⟩] := by
        simp [linesOfToken, rawToLines, splitLinesChar, hsplit, rawToLines.go]
      rw [linesOf_cons, hlines]
      constructor
      · simp only [List.map_append, List.flatten_append, List.map_cons,
          List.map_nil, List.flatten_cons, List.flatten_nil, List.append_nil]
        rw [ihj]
        show (l ++ ['\n']) ++ intercalNL (l' :: ls') = intercalNL (l :: l' :: ls')
        rw [show intercalNL (l :: l' :: ls') = l ++ '\n' :: intercalNL (l' :: ls')
          from rfl]
        simp
      · intro li h
        rcases List.mem_append.1 h with h | h
        · rw [List.mem_singleton.1 h]
          exact ⟨rfl, rfl, rfl⟩
        · exact ihf li h

/-- C2 counterexample, refuting both conjuncts of the claim.  Length
bound: a single line longer than `maxLength` is returned unsplit —
`splitMarkdownForDiscord "aaa" 1` yields one chunk of length 3, violating
`|s| ≤ N`.  Concatenation after stripping the fences injected at cut
points: the unclosed block ```` ```js\nhi ```` at `maxLength 4` splits
into two chunks whose single cut injected the synthetic close `` ```\n ``
(the last 4 characters of the first chunk) and the reopening fence
`` ```js\n `` (the first 6 characters of the second); stripping exactly
those leaves ```` ```js\nhi\n```\n ````, not the original content — the
chunker has appended a closing fence and a trailing newline the input
never had, so no-structural-loss concatenation fails as well. -/
theorem chunk_length_counterexample :
    (splitMarkdownForDiscord "aaa".data 1 = ["aaa".data] ∧
      ("aaa".data).length > 1) ∧
    (splitMarkdownForDiscord "```js\nhi".data 4
        = ["```js\n```\n".data, "```js\nhi\n```\n".data] ∧
      ("```js\n```\n".data.take ("```js\n```\n".data.length - 4) ++
        "```js\nhi\n```\n".data.drop 6) ≠ "```js\nhi".data) := by
  refine ⟨⟨by decide, by decide⟩, ⟨by decide, by decide⟩⟩

/-- C2 amended: every chunk's length is at most
`max maxLength (longest tokenized line + longest fence header) + 4` — the
claim's strict `|chunk| ≤ N` bound fails in general; and for content with
no fence lines, the concatenation of the chunks is exactly the content
(nothing is lost or injected, so there is nothing to strip) — the claim's
concatenation-after-stripping property fails in general for fenced
content, where the chunker normalizes code blocks (closing unclosed
blocks, newline-terminating their last line). -/
theorem splitMarkdown_length_and_join (content : Str) (N : Nat) :
    (∀ chunk ∈ splitMarkdownForDiscord content N,
      chunk.length ≤ max N (maxTextLen (linesOf (markedLex content)) +
        maxFenceLen (linesOf (markedLex content))) + 4) ∧
    ((∀ l ∈ splitLinesChar content, fenceInit l = false) →
      (splitMarkdownForDiscord content N).flatten = content) := by
  constructor
  · intro chunk hchunk
    unfold splitMarkdownForDiscord at hchunk
    split at hchunk
    · rename_i hle
      rw [List.mem_singleton.1 hchunk]
      have : N ≤ max N (maxTextLen (linesOf (markedLex content)) +
        maxFenceLen (linesOf (markedLex content))) := Nat.le_max_left _ _
      omega
    · exact splitLoop_length_bound N _ _ _ [] none
        (fun l hl => ⟨le_maxTextLen _ l hl, le_maxFenceLen _ l hl⟩)
        (by simp) chunk hchunk
  · intro hff
    unfold splitMarkdownForDiscord
    split
    · simp
    · obtain ⟨hjoin, hflags⟩ := lexGo_none_noFence (splitLinesChar content)
        (mem_splitLinesChar_no_newline content) hff
      show (splitLoop N (linesOf (lexGo none (splitLinesChar content))) [] none).flatten
        = content
      rw [splitLoop_join_plain N _ [] hflags, List.nil_append, hjoin,
        intercalNL_splitLinesChar]

/-- C2 witness: fence-free content splits into chunks that concatenate
back to the content. -/
theorem splitMarkdown_length_and_join_witness :
    (splitMarkdownForDiscord "abc\ndef".data 4).flatten = "abc\ndef".data :=
  (splitMarkdown_length_and_join "abc\ndef".data 4).2 (by decide)

/-! ### C6 — behaviour of repeated backtick escaping -/

theorem lexGo_rendered (ts : List MdToken) (hts : CanonToks ts) :
    lexGo none (splitLinesChar ((ts.map renderEscapedToken).flatten)) =
      ts.map canonTok := by
  induction hts with
  | nil =>
    show lexGo none (splitLinesChar []) = []
    rfl
  | lastOther l hne hnl hfen =>
    show lexGo none (splitLinesChar (l ++ [])) = [.other l]
    rw [List.append_nil, splitLinesChar_no_newline l hnl]
    simp [lexGo, hne, hfen]
  | otherNL l ts hnl hfen _ ih =>
    show lexGo none (splitLinesChar ((l ++ ['\n']) ++ (ts.map renderEscapedToken).flatten))
      = .other (l ++ ['\n']) :: ts.map canonTok
    rw [show (l ++ ['\n']) ++ (ts.map renderEscapedToken).flatten
        = l ++ '\n' :: (ts.map renderEscapedToken).flatten from by simp,
      splitLinesChar_append_newline, splitLinesChar_no_newline l hnl]
    obtain ⟨r, rs, hr⟩ : ∃ r rs,
        splitLinesChar ((ts.map renderEscapedToken).flatten) = r :: rs := by
      cases h : splitLinesChar ((ts.map renderEscapedToken).flatten) with
      | nil => exact absurd h (splitLinesChar_ne_nil _)
      | cons r rs => exact ⟨r, rs, rfl⟩
    rw [hr] at ih ⊢
    rw [show ([l] ++ r :: rs) = l :: r :: rs from rfl,
      show lexGo none (l :: r :: rs) = .other (l ++ ['\n']) :: lexGo none (r :: rs)
        from by simp [lexGo, hfen],
      ih]
  | codeTok lang text ts hlang htext _ ih =>
    show lexGo none (splitLinesChar (
        (fence ++ lang ++ ['\n'] ++ escapeCode text ++ '\n' :: fence ++ ['\n']) ++
        (ts.map renderEscapedToken).flatten))
      = .code lang (escapeCode text) :: ts.map canonTok
    rw [show (fence ++ lang ++ ['\n'] ++ escapeCode text ++ '\n' :: fence ++ ['\n']) ++
        (ts.map renderEscapedToken).flatten
      = (fence ++ lang) ++ '\n' :: (escapeCode text ++ '\n' ::
          (fence ++ '\n' :: (ts.map renderEscapedToken).flatten)) from by simp,
      splitLinesChar_append_newline,
      splitLinesChar_no_newline _ (newline_not_mem_fence_append hlang),
      splitLinesChar_append_newline,
      splitLinesChar_append_newline,
      splitLinesChar_no_newline fence newline_not_mem_fence]
    have hEfence : ∀ x ∈ splitLinesChar (escapeCode text), fenceInit x = false := by
      intro x hx
      rw [escapeCode_splitLines] at hx
      obtain ⟨y, _, rfl⟩ := List.mem_map.1 hx
      exact escapeCode_not_fenceInit y
    obtain ⟨r, rs, hr⟩ : ∃ r rs, splitLinesChar (escapeCode text) ++
        ([fence] ++ splitLinesChar ((ts.map renderEscapedToken).flatten)) = r :: rs := by
      cases h : splitLinesChar (escapeCode text) ++
          ([fence] ++ splitLinesChar ((ts.map renderEscapedToken).flatten)) with
      | nil =>
        rcases List.append_eq_nil.1 h with ⟨_, h2⟩
        simp at h2
      | cons r rs => exact ⟨r, rs, rfl⟩
    rw [show [fence ++ lang] ++ (splitLinesChar (escapeCode text) ++
        ([fence] ++ splitLinesChar ((ts.map renderEscapedToken).flatten)))
      = (fence ++ lang) :: (splitLinesChar (escapeCode text) ++
        ([fence] ++ splitLinesChar ((ts.map renderEscapedToken).flatten))) from rfl,
      hr,
      show lexGo none ((fence ++ lang) :: r :: rs)
        = lexGo (some ((fence ++ lang).drop 3, [])) (r :: rs) from by
        simp [lexGo, fenceInit_fence_append],
      ← hr,
      show (fence ++ lang).drop 3 = lang from by
        rw [show (3 : Nat) = fence.length from rfl, List.drop_left],
      show [fence] ++ splitLinesChar ((ts.map renderEscapedToken).flatten)
        = fence :: splitLinesChar ((ts.map renderEscapedToken).flatten) from rfl,
      lexGo_some_through lang [] (splitLinesChar (escapeCode text)) fence
        (splitLinesChar ((ts.map renderEscapedToken).flatten)) hEfence fenceInit_fence,
      ih]
    rw [List.reverse_nil, List.nil_append, intercalNL_splitLinesChar]

/-- Re-lexing an escaped rendering: one pass of
`escapeBackticksInCodeBlocks` leaves a token stream whose code interiors
are the escaped originals and whose other tokens are untouched. -/
theorem markedLex_escape (content : Str) :
    markedLex (escapeBackticksInCodeBlocks content) =
      (markedLex content).map canonTok := by
  show lexGo none (splitLinesChar (((markedLex content).map renderEscapedToken).flatten))
    = (markedLex content).map canonTok
  exact lexGo_rendered _ (markedLex_canon content)

/-- C6 counterexample: `escapeBackticksInCodeBlocks` is not idempotent —
on ```` ```\na`b\n``` ```` the first pass yields ``a\`b`` and the second
pass escapes the same backtick again, yielding ``a\\`b``. -/
theorem escape_not_idempotent_counterexample :
    escapeBackticksInCodeBlocks (escapeBackticksInCodeBlocks "```\na`b\n```\n".data) ≠
      escapeBackticksInCodeBlocks "```\na`b\n```\n".data := by
  decide

/-- C6 amended: `escapeBackticksInCodeBlocks` is not idempotent in
general — each application inserts one more backslash before every
backtick in a fenced code block's interior, so an already-escaped
backtick is escaped again; it is idempotent exactly on content whose
fenced code interiors contain no backticks, where the second pass finds
the same blocks (the rendering is canonical) and has nothing to escape. -/
theorem escape_idempotent_backtick_free (content : Str)
    (h : ∀ t ∈ markedLex content, codeBacktickFree t = true) :
    escapeBackticksInCodeBlocks (escapeBackticksInCodeBlocks content) =
      escapeBackticksInCodeBlocks content := by
  show ((markedLex (escapeBackticksInCodeBlocks content)).map renderEscapedToken).flatten
    = escapeBackticksInCodeBlocks content
  rw [markedLex_escape, List.map_map]
  show (((markedLex content).map (renderEscapedToken ∘ canonTok)).flatten) = _
  unfold escapeBackticksInCodeBlocks
  congr 1
  refine List.map_congr_left ?_
  intro t ht
  cases t with
  | other raw => rfl
  | code lang text =>
    have hb : backtick ∉ text := by
      simpa [codeBacktickFree] using h _ ht
    simp [Function.comp, canonTok, renderEscapedToken,
      escapeCode_of_not_mem text hb]

/-- C6 witness: a concrete code block without backticks is a fixed point
of the second application. -/
theorem escape_idempotent_backtick_free_witness :
    escapeBackticksInCodeBlocks
        (escapeBackticksInCodeBlocks "```js\nlet x = 1;\n```\nplain".data) =
      escapeBackticksInCodeBlocks "```js\nlet x = 1;\n```\nplain".data :=
  escape_idempotent_backtick_free "```js\nlet x = 1;\n```\nplain".data (by decide)

end RemoteVibe
